import Mathlib

/-!
Verification development for the `@nx/js/typescript` plugin
(`packages/js/src/plugins/typescript/plugin.ts`).

The plugin's code is shallowly embedded below: POSIX path strings, an
explicit `World` record standing for the filesystem / module resolver /
black-box config parser, and fuel for the recursive graph walks (the code's
recursion has no structural bound, so each recursive walk takes a fuel
argument and reports whether it completed).
-/

/-! ## Path model (Node.js `path` on POSIX strings) -/

/-- `s.endsWith suffix` on character lists (kernel-friendly). -/
def strEndsWith (s suffix : String) : Bool :=
  suffix.data.isSuffixOf s.data

/-- `s.startsWith start` on character lists (kernel-friendly). -/
def strStartsWith (s start : String) : Bool :=
  start.data.isPrefixOf s.data

/-- Split on `/`, dropping empty segments. Auxiliary over characters. -/
def splitSegsAux : List Char → List Char → List String
  | [], acc => if acc.isEmpty then [] else [⟨acc.reverse⟩]
  | c :: rest, acc =>
    if c = '/' then
      if acc.isEmpty then splitSegsAux rest []
      else (⟨acc.reverse⟩ : String) :: splitSegsAux rest []
    else splitSegsAux rest (c :: acc)

/-- Path segments of a POSIX path string (empty segments dropped). -/
def splitPath (s : String) : List String := splitSegsAux s.data []

/-- Is the path absolute (starts with `/`)? -/
def isAbs (s : String) : Bool := strStartsWith s "/"

/-- Rebuild an absolute path from segments (`[] ↦ "/"`). -/
def unsplitAbs : List String → String
  | [] => "/"
  | l => "/" ++ String.intercalate "/" l

/-- Rebuild a relative path from segments (`[] ↦ "."`, as Node does). -/
def unsplitRel : List String → String
  | [] => "."
  | l => String.intercalate "/" l

/-- Rebuild a path from segments given its absoluteness. -/
def joinSegs (l : List String) (abs : Bool) : String :=
  if abs then unsplitAbs l else unsplitRel l

/-- Node path normalization on segments: drop `.`; `..` pops a preceding
real segment, vanishes at the root of an absolute path, and is kept at the
head of a relative path. -/
def normalizeSegs (abs : Bool) (l : List String) : List String :=
  l.foldl
    (fun acc seg =>
      if seg = "." then acc
      else if seg = ".." then
        match acc.getLast? with
        | some s => if s = ".." then acc ++ [".."] else acc.dropLast
        | none => if abs then [] else [".."]
      else acc ++ [seg])
    []

/-- Node `path.normalize` (POSIX, trailing-slash differences ignored). -/
def normalizeStr (s : String) : String :=
  joinSegs (normalizeSegs (isAbs s) (splitPath s)) (isAbs s)

/-- Node `path.join` of two fragments (also models nx's
`joinPathFragments`, which produces normalized POSIX paths). -/
def pathJoin (a b : String) : String :=
  joinSegs (normalizeSegs (isAbs a) (splitPath a ++ splitPath b)) (isAbs a)

/-- nx `joinPathFragments` (two fragments). -/
def joinPathFragments (a b : String) : String := pathJoin a b

/-- nx `joinPathFragments` (three fragments). -/
def joinPathFragments3 (a b c : String) : String := pathJoin (pathJoin a b) c

/-- Node `path.resolve base p` where `base` is already absolute. -/
def resolveAbs (base p : String) : String :=
  if isAbs p then normalizeStr p else pathJoin base p

/-- Node `path.resolve a b c` where `a` is already absolute. -/
def resolve3 (a b c : String) : String := resolveAbs (resolveAbs a b) c

/-- Length of the common segment run of two segment lists. -/
def commonLen : List String → List String → Nat
  | x :: xs, y :: ys => if x = y then commonLen xs ys + 1 else 0
  | _, _ => 0

/-- Node `path.relative` on segment lists (both absolute, normalized). -/
def relativeSegs (a b : List String) : List String :=
  let c := commonLen a b
  List.replicate (a.length - c) ".." ++ b.drop c

/-- Node `path.relative` between two absolute POSIX paths (returns `""` for
equal paths, as Node does). -/
def relativeStr (a b : String) : String :=
  String.intercalate "/"
    (relativeSegs (normalizeSegs true (splitPath a)) (normalizeSegs true (splitPath b)))

/-- Node `path.dirname` (POSIX). -/
def dirname (s : String) : String :=
  let segs := splitPath s
  if segs.length ≤ 1 then (if isAbs s then "/" else ".")
  else joinSegs segs.dropLast (isAbs s)

/-- Node `path.basename` (POSIX). -/
def basename (s : String) : String := ((splitPath s).getLast?).getD s

/-- Node `path.basename p ext` (strips `ext` when it is a proper suffix). -/
def basenameExt (s ext : String) : String :=
  let b := basename s
  if b ≠ ext ∧ strEndsWith b ext then ⟨b.data.take (b.data.length - ext.data.length)⟩
  else b

/-- Node `path.extname` (POSIX): extension of the basename, `""` when the
only dot is the leading one. -/
def extname (s : String) : String :=
  let b := (basename s).data
  if (b.drop 1).contains '.' then "." ++ (⟨(b.reverse.takeWhile (· ≠ '.')).reverse⟩ : String)
  else ""

/-- nx `normalizePath` converts Windows separators; on the POSIX strings of
this model it is the identity. -/
def normalizePath (s : String) : String := s


/-! ## Glob model (`minimatch` restricted to literal segments, `*` and `**`) -/

/-- Match one glob segment (supports `*` and `?`) against one path segment;
the fuel (any value at least `ps.length + ts.length + 1`) only makes the
recursion structural. -/
def segMatchFuel : Nat → List Char → List Char → Bool
  | 0, _, _ => false
  | fuel + 1, ps, ts =>
    match ps, ts with
    | [], [] => true
    | '*' :: ps', [] => segMatchFuel fuel ps' []
    | '*' :: ps', t :: ts' => segMatchFuel fuel ps' (t :: ts') || segMatchFuel fuel ('*' :: ps') ts'
    | p :: ps', t :: ts' => (p = '?' || p = t) && segMatchFuel fuel ps' ts'
    | _, _ => false

/-- Match one glob segment against one path segment. -/
def segCharsMatch (ps ts : List Char) : Bool :=
  segMatchFuel (ps.length + ts.length + 1) ps ts

/-- Match glob pattern segments against path segments (`**` spans zero or
more whole segments); fueled the same way. -/
def minimatchSegsFuel : Nat → List String → List String → Bool
  | 0, _, _ => false
  | fuel + 1, ps, ts =>
    match ps, ts with
    | [], [] => true
    | [], _ :: _ => false
    | p :: ps', ts =>
      if p = "**" then
        minimatchSegsFuel fuel ps' ts ||
          (match ts with
           | [] => false
           | _ :: ts' => minimatchSegsFuel fuel ("**" :: ps') ts')
      else
        match ts with
        | [] => false
        | t :: ts' => segCharsMatch p.data t.data && minimatchSegsFuel fuel ps' ts'

/-- Match glob pattern segments against path segments. -/
def minimatchSegs (ps ts : List String) : Bool :=
  minimatchSegsFuel (ps.length + ts.length + 1) ps ts

/-- `minimatch(path, pattern)` of the `minimatch` package, restricted to the
glob features the plugin's reconciliation logic relies on. -/
def minimatch (path pattern : String) : Bool :=
  minimatchSegs (splitPath pattern) (splitPath path)

/-! ## Data model

`ParsedCommandLine` is produced by the black-box TypeScript parser; only the
fields the plugin reads are modelled. File contents are opaque payloads
(`Nat`); the parsers `World.parseTs` / `World.parsePkg` map payloads to
parsed values, and an ideal (collision-free) content hash of a file is the
payload itself. -/

/-- The compiler options the plugin reads from `ParsedCommandLine.options`. -/
structure CompilerOptions where
  outFile : Option String := none
  outDir : Option String := none
  tsBuildInfoFile : Option String := none
  rootDir : Option String := none
  noEmit : Bool := false
deriving DecidableEq, Repr

/-- The raw (unparsed JSON) fields the plugin reads from
`ParsedCommandLine.raw`. -/
structure TsConfigRaw where
  extendsField : Option String := none
  includeField : Option (List String) := none
  excludeField : Option (List String) := none
deriving DecidableEq, Repr

/-- The slice of `ParsedCommandLine` used by the plugin. Reference entries
are the `path` strings of `projectReferences`. -/
structure TsConfig where
  options : CompilerOptions := {}
  raw : TsConfigRaw := {}
  fileNames : List String := []
  projectReferences : List String := []
deriving DecidableEq, Repr

instance : Inhabited TsConfig := ⟨{}⟩

/-- One value of a `package.json` exports map entry: either a string path or
a one-level conditions object whose sub-values are strings (`none` stands
for a non-string sub-value, which the validation skips). -/
inductive PkgExportValue where
  | str (s : String)
  | obj (entries : List (String × Option String))
deriving DecidableEq, Repr

/-- The `exports` field of a `package.json`: a bare string or a map. -/
inductive PkgExports where
  | str (s : String)
  | map (entries : List (String × PkgExportValue))
deriving DecidableEq, Repr

/-- The slice of a `package.json` used by the plugin's build validation. -/
structure PkgJson where
  exportsField : Option PkgExports := none
  main : Option String := none
  moduleField : Option String := none
deriving DecidableEq, Repr

instance : Inhabited PkgJson := ⟨{}⟩

/-- The plugin's environment: filesystem (file payloads, directories,
directory listings), the host module resolver used for `extends`
specifiers, and the black-box parsers. -/
structure World where
  content : String → Option Nat
  dirs : String → Bool
  children : String → List String
  resolveModule : String → String → Option String
  parseTs : Nat → TsConfig
  parsePkg : Nat → PkgJson

/-- `existsSync`: a path exists when it is a file or a directory. -/
def fsExists (w : World) (p : String) : Bool :=
  (w.content p).isSome || w.dirs p

/-- `statSync(p).isFile()`. -/
def fsIsFile (w : World) (p : String) : Bool := (w.content p).isSome

/-- `readCachedTsConfig` / `readTsConfig`: parse the config file at `p`.
(The code throws on a missing file; every call in the plugin is guarded by
an existence check, and the model returns the default record there.) -/
def readTs (w : World) (p : String) : TsConfig :=
  ((w.content p).map w.parseTs).getD {}

/-- `readJsonFile` for a `package.json` (guarded by existence in the code). -/
def readPkg (w : World) (p : String) : Option PkgJson :=
  (w.content p).map w.parsePkg

/-! ## Small container helpers (JS `Set` / object-key semantics) -/

/-- JS `Set.add`: append if absent, keep insertion order. -/
def insertUniq (l : List String) (x : String) : List String :=
  if l.contains x then l else l ++ [x]

/-- JS object property assignment `o[k] = v`: update in place if the key is
present (insertion order kept), else append. -/
def insertAssoc (l : List (String × TsConfig)) (k : String) (v : TsConfig) :
    List (String × TsConfig) :=
  if l.any (fun e => e.1 = k) then l.map (fun e => if e.1 = k then (k, v) else e)
  else l ++ [(k, v)]

/-- `Object.keys`. -/
def assocKeys (l : List (String × TsConfig)) : List String := l.map Prod.fst

/-! ## Reference classification (`isExternalProjectReference`) -/

/-- Does this directory (as segments of an absolute path) contain a
`package.json` or `project.json`? -/
def hasProjectMarker (w : World) (dirSegs : List String) : Bool :=
  fsExists w (unsplitAbs (dirSegs ++ ["package.json"])) ||
    fsExists w (unsplitAbs (dirSegs ++ ["project.json"]))

/-- The `while (currentPath !== absoluteProjectRoot)` loop of
`isExternalProjectReference`, on segments: check the current directory for a
unit marker, then step to `dirname`. Fuel bounds the iteration count; the
wrapper supplies enough fuel for every path below the project root. -/
def upwalkExternal (w : World) (rootSegs : List String) :
    Nat → List String → Bool
  | 0, _ => false
  | fuel + 1, cur =>
    if cur = rootSegs then false
    else if hasProjectMarker w cur then true
    else upwalkExternal w rootSegs fuel cur.dropLast

/-- Does `relative(root, cur)` start with `".."` (the parent-traversal
check of `isExternalProjectReference`)? -/
def relStartsParent (rootSegs curSegs : List String) : Bool :=
  strStartsWith (((relativeSegs rootSegs curSegs).headD "")) ".."

/-- Core of `isExternalProjectReference` over segment lists: outside the
project root, or a unit marker somewhere on the upward walk. -/
def isExternalCore (w : World) (rootSegs curSegs : List String) : Bool :=
  if relStartsParent rootSegs curSegs then true
  else upwalkExternal w rootSegs (curSegs.length + 1) curSegs

/-- `getTsConfigDirName`: parent dir for a file path, the path itself
(normalized) for a directory. -/
def getTsConfigDirName (w : World) (tsConfigPath : String) : String :=
  if fsIsFile w tsConfigPath then dirname tsConfigPath else normalizeStr tsConfigPath

/-- `isExternalProjectReference refTsConfigPath workspaceRoot projectRoot`. -/
def isExternalProjectReference (w : World) (refTsConfigPath workspaceRoot projectRoot : String) : Bool :=
  let absoluteProjectRoot := pathJoin workspaceRoot projectRoot
  let currentPath := getTsConfigDirName w refTsConfigPath
  isExternalCore w (normalizeSegs true (splitPath absoluteProjectRoot))
    (normalizeSegs true (splitPath currentPath))

/-! ## Graph walker (`walkProjectReferences`) -/

/-- The reference loop of `walkProjectReferences`. The `visited` argument
models the function's `projectReferences` parameter used for the
`// Already resolved` check: exactly as in the code, nothing is ever added
to it and the recursive call (`deep`, absent when the fuel is spent)
receives a fresh empty record. The result is the visitor state, the
ordered trace of visitor invocations (resolved config paths), and whether
the traversal completed within the fuel. -/
def walkListAux {σ : Type} (w : World) (vis : String → TsConfig → σ → σ × Bool)
    (deep : Option (TsConfig → σ → σ × List String × Bool)) :
    List String → σ → List String → σ × List String × Bool
  | [], s, _ => (s, [], true)
  | r :: rest, s, visited =>
    if visited.contains r then walkListAux w vis deep rest s visited
    else if fsExists w r = false then walkListAux w vis deep rest s visited
    else
      let rp := if strEndsWith r ".json" then r else pathJoin r "tsconfig.json"
      let rc := readTs w rp
      let sc := vis rp rc s
      if sc.2 then
        match deep with
        | none => (sc.1, [rp], false)
        | some d =>
          let dres := d rc sc.1
          if dres.2.2 then
            let cont := walkListAux w vis deep rest dres.1 visited
            (cont.1, rp :: dres.2.1 ++ cont.2.1, cont.2.2)
          else (dres.1, rp :: dres.2.1, false)
      else
        let cont := walkListAux w vis deep rest sc.1 visited
        (cont.1, rp :: cont.2.1, cont.2.2)

/-- The fueled walk itself: the fuel bounds the recursion depth; at depth
zero a continuing visitor marks the traversal incomplete. -/
def walkPRF {σ : Type} (w : World) (vis : String → TsConfig → σ → σ × Bool) :
    Nat → List String → σ → List String → σ × List String × Bool
  | 0, refs, s, visited => walkListAux w vis none refs s visited
  | fuel + 1, refs, s, visited =>
    walkListAux w vis
      (some (fun rc s' => walkPRF w vis fuel rc.projectReferences s' [])) refs s visited

/-- The visitor of `resolveInternalProjectReferences`: skip (and stop at)
external references, record internal ones and recurse. -/
def internalVisitor (w : World) (workspaceRoot projectRoot : String) :
    String → TsConfig → List (String × TsConfig) → List (String × TsConfig) × Bool :=
  fun configPath config s =>
    if isExternalProjectReference w configPath workspaceRoot projectRoot then (s, false)
    else (insertAssoc s configPath config, true)

/-- The visitor of `resolveShallowExternalProjectReferences`: record
external references, never recurse. -/
def shallowVisitor (w : World) (workspaceRoot projectRoot : String) :
    String → TsConfig → List (String × TsConfig) → List (String × TsConfig) × Bool :=
  fun configPath config s =>
    (if isExternalProjectReference w configPath workspaceRoot projectRoot then
      insertAssoc s configPath config
     else s, false)

/-- `resolveInternalProjectReferences`, fueled (state, trace, completed). -/
def resolveInternalProjectReferences (w : World) (fuel : Nat) (tsConfig : TsConfig)
    (workspaceRoot projectRoot : String) :
    List (String × TsConfig) × List String × Bool :=
  walkPRF w (internalVisitor w workspaceRoot projectRoot) fuel
    tsConfig.projectReferences [] []

/-- `resolveShallowExternalProjectReferences`, fueled. -/
def resolveShallowExternalProjectReferences (w : World) (fuel : Nat) (tsConfig : TsConfig)
    (workspaceRoot projectRoot : String) :
    List (String × TsConfig) × List String × Bool :=
  walkPRF w (shallowVisitor w workspaceRoot projectRoot) fuel
    tsConfig.projectReferences [] []

/-! ## `extends` chain (`getExtendedConfigFiles`) -/

/-- Result of `resolveExtendedTsConfigPath`. -/
structure ResolvedExtendedConfig where
  filePath : String
  externalPackage : Option String := none
deriving DecidableEq, Repr

/-- `resolveExtendedTsConfigPath`: resolve through the host module
resolver; a relative specifier is a plain file, a bare specifier records
its package name. -/
def resolveExtendedTsConfigPath (w : World) (tsConfigPath directory : String) :
    Option ResolvedExtendedConfig :=
  match w.resolveModule tsConfigPath directory with
  | none => none
  | some resolvedPath =>
    if strStartsWith tsConfigPath "." then some { filePath := resolvedPath }
    else
      let parts := splitPath tsConfigPath
      let packageName :=
        if strStartsWith tsConfigPath "@" then
          String.intercalate "/" (parts.take 2)
        else (parts.headD tsConfigPath)
      some { filePath := resolvedPath, externalPackage := some packageName }

/-- Result of the `getExtendedConfigFiles` loop: collected files and
external package names, plus whether the `while` loop exited within the
fuel. -/
structure ExtChainRes where
  files : List String
  packages : List String
  completed : Bool
deriving DecidableEq, Repr

/-- Is `raw.extends` truthy (present and nonempty)? -/
def truthyExtends (cfg : TsConfig) : Bool :=
  (cfg.raw.extendsField.getD "") ≠ ""

/-- One iteration head of the `while (currentConfig.raw?.extends)` loop of
`getExtendedConfigFiles`: `none` when the loop exits here (no truthy
`extends`, or resolution fails), else the resolved extended config. -/
def extChainNext (w : World) (currentConfigPath : String) (currentConfig : TsConfig) :
    Option ResolvedExtendedConfig :=
  if truthyExtends currentConfig then
    resolveExtendedTsConfigPath w (currentConfig.raw.extendsField.getD "")
      (dirname currentConfigPath)
  else none

/-- The `while (currentConfig.raw?.extends)` loop of
`getExtendedConfigFiles`, fueled: each iteration resolves the `extends`
specifier of the current config, stops at a bare-package specifier or a
resolution failure, else collects the file and follows it. -/
def extChainF (w : World) :
    Nat → String → TsConfig → List String → List String → ExtChainRes
  | fuel, currentConfigPath, currentConfig, files, packages =>
    match extChainNext w currentConfigPath currentConfig with
    | none => ⟨files, packages, true⟩
    | some ext =>
      match ext.externalPackage with
      | some pkg => ⟨files, insertUniq packages pkg, true⟩
      | none =>
        match fuel with
        | 0 => ⟨insertUniq files ext.filePath, packages, false⟩
        | fuel' + 1 =>
          extChainF w fuel' ext.filePath (readTs w ext.filePath)
            (insertUniq files ext.filePath) packages

/-- `getExtendedConfigFiles`, fueled. -/
def getExtendedConfigFiles (w : World) (fuel : Nat) (tsConfigPath : String)
    (tsConfig : TsConfig) : ExtChainRes :=
  extChainF w fuel tsConfigPath tsConfig [] []

/-! ## `hasExternalProjectReferences` -/

/-- The reference loop of `hasExternalProjectReferences`; the recursive
call of the code (which shares the mutated `seen` set) is `deep`, absent
when the fuel is spent. Result: (answer, final seen set, completed). -/
def hasExternalGoAux (w : World) (workspaceRoot projectRoot : String)
    (deep : Option (List String → List String → Bool × List String × Bool)) :
    List String → List String → Bool × List String × Bool
  | [], seen => (false, seen, true)
  | r :: rest, seen =>
    if seen.contains r then hasExternalGoAux w workspaceRoot projectRoot deep rest seen
    else if fsExists w r = false then hasExternalGoAux w workspaceRoot projectRoot deep rest seen
    else if isExternalProjectReference w r workspaceRoot projectRoot then (true, seen, true)
    else
      let rp := if strEndsWith r ".json" then r else pathJoin r "tsconfig.json"
      let rc := readTs w rp
      match deep with
      | none => (false, seen, false)
      | some d =>
        let dres :=
          if rc.projectReferences.isEmpty then ((false, seen, true) : Bool × List String × Bool)
          else d rc.projectReferences (insertUniq seen rp)
        if dres.2.2 = false then (dres.1, dres.2.1, false)
        else if dres.1 then (true, dres.2.1, true)
        else hasExternalGoAux w workspaceRoot projectRoot deep rest dres.2.1

/-- The fueled loop of `hasExternalProjectReferences` (fuel bounds the
recursion depth). -/
def hasExternalGo (w : World) (workspaceRoot projectRoot : String) :
    Nat → List String → List String → Bool × List String × Bool
  | 0, refs, seen => hasExternalGoAux w workspaceRoot projectRoot none refs seen
  | fuel + 1, refs, seen =>
    hasExternalGoAux w workspaceRoot projectRoot
      (some (fun refs' seen' => hasExternalGo w workspaceRoot projectRoot fuel refs' seen'))
      refs seen

/-- `hasExternalProjectReferences`, fueled: short-circuits at the first
external reference at any depth; `seen` is the shared, threaded visited
set (this walk, unlike `walkProjectReferences`, does maintain it). -/
def hasExternalPRF (w : World) (workspaceRoot projectRoot : String)
    (fuel : Nat) (tsConfigPath : String) (tsConfig : TsConfig)
    (seen : List String) : Bool × List String × Bool :=
  if tsConfig.projectReferences.isEmpty then (false, seen, true)
  else
    hasExternalGo w workspaceRoot projectRoot fuel tsConfig.projectReferences
      (insertUniq seen tsConfigPath)

/-! ## Input/output derivation -/

/-- `pathToInputOrOutput`: express a path relative to the project root when
inside it, else relative to the workspace root. -/
def pathToInputOrOutput (path workspaceRoot projectRoot : String) : String :=
  let fullProjectRoot := resolveAbs workspaceRoot projectRoot
  let fullPath := resolveAbs workspaceRoot path
  let pathRelativeToProjectRoot := normalizePath (relativeStr fullProjectRoot fullPath)
  if strStartsWith pathRelativeToProjectRoot ".." then
    joinPathFragments "{workspaceRoot}" (relativeStr workspaceRoot fullPath)
  else joinPathFragments "{projectRoot}" pathRelativeToProjectRoot

/-- One entry of a target's `inputs` list. -/
inductive Input where
  | str (s : String)
  | dependentTasksOutputFiles (glob : String)
  | externalDependencies (packages : List String)
deriving DecidableEq, Repr

/-- The local `normalize` helper of `getInputs` (strips a leading `./`). -/
def stripDotSlash (p : String) : String :=
  if strStartsWith p "./" then ⟨p.data.drop 2⟩ else p

/-- Does `excludePath` overlap (glob containment in either direction) with
some include pattern of a different involved config? -/
def excludeReclaimed (otherFilesInclude : List String) (excludePath : String) : Bool :=
  otherFilesInclude.any fun includePath =>
    minimatch (stripDotSlash includePath) (stripDotSlash excludePath) ||
      minimatch (stripDotSlash excludePath) (stripDotSlash includePath)

/-- `getInputs`, fueled (the fuel feeds the `extends`-chain walk and
`hasExternalProjectReferences`); `none` when a walk ran out of fuel.
`namedInputs` is the list of named-input names defined by the host. -/
def getInputs (w : World) (fuel : Nat) (namedInputs : List String)
    (configFilePath : String) (tsConfig : TsConfig)
    (internalProjectReferences : List (String × TsConfig))
    (workspaceRoot projectRoot : String) : Option (List Input) :=
  let extendedConfigFiles := getExtendedConfigFiles w fuel configFilePath tsConfig
  if extendedConfigFiles.completed = false then none
  else
    let configFiles0 := extendedConfigFiles.files.foldl insertUniq []
    let externalDependencies := "typescript" :: extendedConfigFiles.packages
    let projectTsConfigFiles : List (String × TsConfig) :=
      (configFilePath, tsConfig) :: internalProjectReferences
    let absoluteProjectRoot := pathJoin workspaceRoot projectRoot
    let configFiles := projectTsConfigFiles.foldl (fun acc e => insertUniq acc e.1) configFiles0
    let includePaths := projectTsConfigFiles.foldl
      (fun acc e =>
        let offset := relativeStr absoluteProjectRoot (dirname e.1)
        (e.2.raw.includeField.getD []).foldl
          (fun acc2 p => insertUniq acc2 (pathJoin offset p)) acc)
      []
    let excludePaths := projectTsConfigFiles.foldl
      (fun acc e =>
        match e.2.raw.excludeField with
        | none => acc
        | some excludes =>
          let otherFilesInclude := projectTsConfigFiles.foldl
            (fun acc2 e2 => if e2.1 ≠ e.1 then acc2 ++ (e2.2.raw.includeField.getD []) else acc2)
            []
          excludes.foldl
            (fun acc2 excludePath =>
              if excludeReclaimed otherFilesInclude excludePath then acc2
              else insertUniq acc2 excludePath)
            acc)
      []
    let inputs1 : List Input :=
      if includePaths.isEmpty = false then
        (if fsExists w (joinPathFragments3 workspaceRoot projectRoot "package.json") then
          [Input.str "{projectRoot}/package.json"] else []) ++
        configFiles.map (fun p => Input.str (pathToInputOrOutput p workspaceRoot projectRoot)) ++
        includePaths.map (fun p =>
          Input.str (pathToInputOrOutput (joinPathFragments projectRoot p) workspaceRoot projectRoot))
      else [Input.str (if namedInputs.contains "production" then "production" else "default")]
    let inputs2 : List Input :=
      excludePaths.map fun p =>
        Input.str ("!" ++ pathToInputOrOutput (joinPathFragments projectRoot p) workspaceRoot projectRoot)
    let he := hasExternalPRF w workspaceRoot projectRoot fuel configFilePath tsConfig []
    if he.2.2 = false then none
    else
      let inputs3 : List Input :=
        if he.1 then [Input.dependentTasksOutputFiles "**/*.d.ts"]
        else [Input.str (if namedInputs.contains "production" then "^production" else "^default")]
      some (inputs1 ++ inputs2 ++ inputs3 ++ [Input.externalDependencies externalDependencies])

/-- The outputs contributed by one involved config in `getOutputs`
(accumulated into the `outputs` set). -/
def getOutputsOne (configFilePath : String) (tsConfigOptions : CompilerOptions)
    (config : TsConfig) (workspaceRoot projectRoot : String)
    (outputs : List String) : List String :=
  match config.options.outFile with
  | some outFile =>
    let outFileName := basenameExt outFile ".js"
    let outFileDir := dirname outFile
    let o1 := insertUniq outputs (pathToInputOrOutput outFile workspaceRoot projectRoot)
    let outDir := relativeStr workspaceRoot outFileDir
    let o2 := insertUniq o1
      (pathToInputOrOutput (joinPathFragments outDir (outFileName ++ ".js.map")) workspaceRoot projectRoot)
    let o3 := insertUniq o2
      (pathToInputOrOutput (joinPathFragments outDir (outFileName ++ ".d.ts")) workspaceRoot projectRoot)
    let o4 := insertUniq o3
      (pathToInputOrOutput (joinPathFragments outDir (outFileName ++ ".d.ts.map")) workspaceRoot projectRoot)
    insertUniq o4
      (match tsConfigOptions.tsBuildInfoFile with
       | some bi => pathToInputOrOutput bi workspaceRoot projectRoot
       | none =>
         pathToInputOrOutput (joinPathFragments outDir (outFileName ++ ".tsbuildinfo"))
           workspaceRoot projectRoot)
  | none =>
    match config.options.outDir with
    | some outDir =>
      let o1 := insertUniq outputs (pathToInputOrOutput outDir workspaceRoot projectRoot)
      match config.options.tsBuildInfoFile with
      | some bi =>
        if strStartsWith (normalizeStr bi) (normalizeStr outDir ++ "/") = false then
          insertUniq o1 (pathToInputOrOutput bi workspaceRoot projectRoot)
        else o1
      | none =>
        match config.options.rootDir with
        | some rootDir =>
          if rootDir ≠ "." then
            let relativeRootDir := relativeStr rootDir (pathJoin workspaceRoot projectRoot)
            insertUniq o1
              (pathToInputOrOutput
                (joinPathFragments3 outDir relativeRootDir "*.tsbuildinfo")
                workspaceRoot projectRoot)
          else o1
        | none => o1
    | none =>
      if config.fileNames.isEmpty = false then
        let globs :=
          ["**/*.js", "**/*.cjs", "**/*.mjs", "**/*.jsx", "**/*.js.map", "**/*.jsx.map",
           "**/*.d.ts", "**/*.d.cts", "**/*.d.mts", "**/*.d.ts.map", "**/*.d.cts.map",
           "**/*.d.mts.map"]
        let o1 := globs.foldl
          (fun acc g => insertUniq acc (joinPathFragments "{projectRoot}" g)) outputs
        let name := basenameExt configFilePath ".json"
        insertUniq o1
          (match tsConfigOptions.tsBuildInfoFile with
           | some bi => pathToInputOrOutput bi workspaceRoot projectRoot
           | none => joinPathFragments "{projectRoot}" (name ++ ".tsbuildinfo"))
      else outputs

/-- `getOutputs`: fold the per-config output contributions over the root
config and every internal reference. -/
def getOutputs (configFilePath : String) (tsConfig : TsConfig)
    (internalProjectReferences : List (String × TsConfig))
    (workspaceRoot projectRoot : String) : List String :=
  (tsConfig :: internalProjectReferences.map Prod.snd).foldl
    (fun acc config =>
      getOutputsOne configFilePath tsConfig.options config workspaceRoot projectRoot acc)
    []

/-! ## Build validation (`isValidPackageJsonBuildConfig`) -/

/-- The local `isPathSourceFile` closure: with an output location
configured, a path is a source file when it does not resolve under it;
otherwise classification is by file extension alone. -/
def isPathSourceFile (tsConfig : TsConfig) (workspaceRoot projectRoot : String)
    (path : String) : Bool :=
  let outDir :=
    match tsConfig.options.outFile with
    | some f => some (dirname f)
    | none => tsConfig.options.outDir
  match outDir with
  | some od =>
    let resolvedOutDir := resolve3 workspaceRoot projectRoot od
    let pathToCheck := resolve3 workspaceRoot projectRoot path
    strStartsWith pathToCheck resolvedOutDir = false
  | none =>
    [".ts", ".tsx", ".cts", ".mts"].contains (extname path)

/-- The local `containsInvalidPath` closure: a string value is checked
directly; in a conditions object every string sub-value except `types` is
checked; non-string sub-values are skipped. -/
def containsInvalidPath (tsConfig : TsConfig) (workspaceRoot projectRoot : String) :
    PkgExportValue → Bool
  | .str s => isPathSourceFile tsConfig workspaceRoot projectRoot s
  | .obj entries =>
    entries.any fun e =>
      if e.1 = "types" then false
      else match e.2 with
        | some s => isPathSourceFile tsConfig workspaceRoot projectRoot s
        | none => false

/-- `isValidPackageJsonBuildConfig`: entry points named by `exports` (the
`.` export first, then the other exports), falling back to `main` and
`module`, must not point at source files; a missing `package.json` is
valid. -/
def isValidPackageJsonBuildConfig (w : World) (tsConfig : TsConfig)
    (workspaceRoot projectRoot : String) : Bool :=
  let packageJsonPath := joinPathFragments3 workspaceRoot projectRoot "package.json"
  match readPkg w packageJsonPath with
  | none => true
  | some packageJson =>
    let src := isPathSourceFile tsConfig workspaceRoot projectRoot
    let inv := containsInvalidPath tsConfig workspaceRoot projectRoot
    match packageJson.exportsField with
    | some (.str s) => src s = false
    | some (.map entries) =>
      match entries.find? (fun e => e.1 = ".") with
      | some dot => inv dot.2 = false
      | none => entries.all fun e => e.1 = "." || inv e.2 = false
    | none =>
      (match packageJson.main with
       | some m => src m = false
       | none => true) &&
      (match packageJson.moduleField with
       | some m => src m = false
       | none => true)

/-! ## Plugin options and targets -/

/-- Normalized `typecheck` options. -/
structure TypecheckOptions where
  targetName : String
deriving DecidableEq, Repr

/-- Normalized `build` options. -/
structure BuildOptions where
  targetName : String
  configName : String
  buildDepsName : Option String := none
  watchDepsName : Option String := none
deriving DecidableEq, Repr

/-- `NormalizedPluginOptions` (`none` models `false`). -/
structure NormalizedPluginOptions where
  typecheck : Option TypecheckOptions
  build : Option BuildOptions
  verboseOutput : Bool
deriving DecidableEq, Repr

/-- One task definition (`TargetConfiguration`); the free-text metadata
block of the code carries no derived information and is omitted. -/
structure Target where
  command : String
  dependsOn : List String
  cwd : String
  cache : Bool
  inputs : List Input
  outputs : List String
  syncGenerators : List String
deriving DecidableEq, Repr

/-- JS object property assignment for the `targets` record. -/
def insertTarget (l : List (String × Target)) (k : String) (v : Target) :
    List (String × Target) :=
  if l.any (fun e => e.1 = k) then l.map (fun e => if e.1 = k then (k, v) else e)
  else l ++ [(k, v)]

/-- `addBuildAndWatchDepsTargets` lives outside the given source tree.
Modelled from the spec: the specification attributes no typecheck/build
task emission to it, so it is modelled as leaving the targets unchanged. -/
def addBuildAndWatchDepsTargets (targets : List (String × Target)) :
    List (String × Target) := targets

/-- `buildTscTargets`, fueled; `none` when a graph walk ran out of fuel.
The build branch recomputes the internal references (`??=` on a pure
computation yields the same record). -/
def buildTscTargets (w : World) (fuel : Nat) (namedInputs : List String)
    (configFilePath projectRoot : String) (options : NormalizedPluginOptions)
    (workspaceRoot : String) : Option (List (String × Target)) := do
  let targets0 : List (String × Target) := []
  let tsConfig := readTs w configFilePath
  -- Typecheck target
  let targets1 ←
    match options.typecheck with
    | some tc =>
      if basename configFilePath = "tsconfig.json" then do
        let internalRefs := resolveInternalProjectReferences w fuel tsConfig workspaceRoot projectRoot
        if internalRefs.2.2 = false then none
        else do
          let externalRefs := resolveShallowExternalProjectReferences w fuel tsConfig workspaceRoot projectRoot
          if externalRefs.2.2 = false then none
          else do
            let command :=
              if tsConfig.options.noEmit ||
                  internalRefs.1.any (fun e => e.2.options.noEmit) ||
                  externalRefs.1.any (fun e => e.2.options.noEmit) then
                "echo \"The 'typecheck' target is disabled because one or more project references set 'noEmit: true' in their tsconfig. Remove this property to resolve this issue.\""
              else
                "tsc --build --emitDeclarationOnly" ++
                  (if options.verboseOutput then " --verbose" else "")
            let inputs ← getInputs w fuel namedInputs configFilePath tsConfig internalRefs.1
              workspaceRoot projectRoot
            let outputs := getOutputs configFilePath tsConfig internalRefs.1
              workspaceRoot projectRoot
            some (insertTarget targets0 tc.targetName
              { command := command
                dependsOn := ["^" ++ tc.targetName]
                cwd := projectRoot
                cache := true
                inputs := inputs
                outputs := outputs
                syncGenerators := ["@nx/js:typescript-sync"] })
      else some targets0
    | none => some targets0
  -- Build target
  match options.build with
  | some b =>
    if basename configFilePath = b.configName ∧
        isValidPackageJsonBuildConfig w tsConfig workspaceRoot projectRoot then do
      let internalRefs := resolveInternalProjectReferences w fuel tsConfig workspaceRoot projectRoot
      if internalRefs.2.2 = false then none
      else do
        let inputs ← getInputs w fuel namedInputs configFilePath tsConfig internalRefs.1
          workspaceRoot projectRoot
        let outputs := getOutputs configFilePath tsConfig internalRefs.1
          workspaceRoot projectRoot
        some (addBuildAndWatchDepsTargets (insertTarget targets1 b.targetName
          { command := "tsc --build " ++ b.configName ++
              (if options.verboseOutput then " --verbose" else "")
            dependsOn := ["^" ++ b.targetName]
            cwd := projectRoot
            cache := true
            inputs := inputs
            outputs := outputs
            syncGenerators := ["@nx/js:typescript-sync"] }))
    else some targets1
  | none => some targets1

/-! ## `createNodesInternal` and the composite cache key -/

/-- The composite cache key. `hashArray` / `hashFile` / `hashObject` are
modelled collision-free: a file hash is the file's payload, the array hash
is the tuple of its parts, and `${nodeHash}_${configFilePath}` is the pair
of the node hash and the path. -/
structure CacheKey where
  fileHashes : List (Option Nat)
  optionsHash : NormalizedPluginOptions
  pkgHash : Option PkgJson
  configFilePath : String
deriving DecidableEq, Repr

/-- The ordered list of files whose content hashes compose the cache key in
`createNodesInternal`: the config file itself, its extended config files,
the internal referenced config files, the shallow external referenced
config files, and the lock file; `none` when a graph walk ran out of fuel. -/
def nodeInfluencingFiles (w : World) (fuel : Nat) (configFilePath workspaceRoot lockFileName : String) :
    Option (List String) :=
  let fullConfigPath := joinPathFragments workspaceRoot configFilePath
  let projectRoot := dirname configFilePath
  let tsConfig := readTs w fullConfigPath
  let extendedConfigFiles := getExtendedConfigFiles w fuel fullConfigPath tsConfig
  if extendedConfigFiles.completed = false then none
  else
    let internalReferencedFiles :=
      resolveInternalProjectReferences w fuel tsConfig workspaceRoot projectRoot
    if internalReferencedFiles.2.2 = false then none
    else
      let externalProjectReferences :=
        resolveShallowExternalProjectReferences w fuel tsConfig workspaceRoot projectRoot
      if externalProjectReferences.2.2 = false then none
      else
        some (fullConfigPath :: extendedConfigFiles.files ++
          assocKeys internalReferencedFiles.1 ++ assocKeys externalProjectReferences.1 ++
          [pathJoin workspaceRoot lockFileName])

/-- The composite cache key computed by `createNodesInternal`. -/
def nodeCacheKey (w : World) (fuel : Nat) (configFilePath : String)
    (options : NormalizedPluginOptions) (workspaceRoot lockFileName : String) :
    Option CacheKey :=
  (nodeInfluencingFiles w fuel configFilePath workspaceRoot lockFileName).map fun files =>
    let projectRoot := dirname configFilePath
    let packageJsonPath := joinPathFragments projectRoot "package.json"
    { fileHashes := files.map w.content
      optionsHash := options
      pkgHash := readPkg w packageJsonPath
      configFilePath := configFilePath }

/-- One project of a `CreateNodesResult`. -/
structure ProjectConfigR where
  projectType : String
  targets : List (String × Target)
deriving DecidableEq, Repr

/-- A `CreateNodesResult` (`projects := []` is the empty result `{}`). -/
structure CreateNodesRes where
  projects : List (String × ProjectConfigR)
deriving DecidableEq, Repr

/-- `createNodesInternal`, fueled; `none` when a graph walk ran out of
fuel. `targetsCache` models the `targetsCache` record (its `??=` update is
a pure lookup-or-compute here). -/
def createNodesInternal (w : World) (fuel : Nat) (configFilePath : String)
    (options : NormalizedPluginOptions) (workspaceRoot lockFileName : String)
    (namedInputs : List String)
    (targetsCache : CacheKey → Option (List (String × Target))) :
    Option CreateNodesRes :=
  let projectRoot := dirname configFilePath
  let fullConfigPath := joinPathFragments workspaceRoot configFilePath
  -- Do not create a project for the workspace root tsconfig files.
  if projectRoot = "." then some ⟨[]⟩
  else
    let siblingFiles := w.children (pathJoin workspaceRoot projectRoot)
    -- Do not create a project if package.json and project.json isn't there.
    if siblingFiles.contains "package.json" = false ∧
        siblingFiles.contains "project.json" = false then some ⟨[]⟩
    -- Do not create a project if it's not a tsconfig.json and there is no
    -- tsconfig.json in the same directory.
    else if basename configFilePath ≠ "tsconfig.json" ∧
        siblingFiles.contains "tsconfig.json" = false then some ⟨[]⟩
    -- Do not create project for Next.js projects.
    else if siblingFiles.contains "next.config.js" ∨
        siblingFiles.contains "next.config.cjs" ∨
        siblingFiles.contains "next.config.mjs" ∨
        siblingFiles.contains "next.config.ts" then some ⟨[]⟩
    else do
      let key ← nodeCacheKey w fuel configFilePath options workspaceRoot lockFileName
      let targets ←
        match targetsCache key with
        | some t => some t
        | none => buildTscTargets w fuel namedInputs fullConfigPath projectRoot options workspaceRoot
      some ⟨[(projectRoot, ⟨"library", targets⟩)]⟩

/-! ## Concrete worlds used by the theorems below -/

/-- Config of `/ws/proj/a/tsconfig.json`: references `b`'s config. -/
def cfgRefA : TsConfig := { projectReferences := ["/ws/proj/b/tsconfig.json"] }

/-- Config of `/ws/proj/b/tsconfig.json`: references `a`'s config back. -/
def cfgRefB : TsConfig := { projectReferences := ["/ws/proj/a/tsconfig.json"] }

/-- A workspace whose project `proj` holds two tsconfig files referencing
each other (a `references` cycle), both internal to the project. -/
def wRefCycle : World where
  content := fun p =>
    if p = "/ws/proj/a/tsconfig.json" then some 1
    else if p = "/ws/proj/b/tsconfig.json" then some 2
    else if p = "/ws/proj/package.json" then some 10
    else none
  dirs := fun p =>
    p = "/ws" ∨ p = "/ws/proj" ∨ p = "/ws/proj/a" ∨ p = "/ws/proj/b"
  children := fun _ => []
  resolveModule := fun _ _ => none
  parseTs := fun n => if n = 1 then cfgRefA else if n = 2 then cfgRefB else {}
  parsePkg := fun _ => {}

/-- Config of `/ws/proj/tsconfig.a.json`: extends `./tsconfig.b.json`. -/
def cfgExtA : TsConfig := { raw := { extendsField := some "./tsconfig.b.json" } }

/-- Config of `/ws/proj/tsconfig.b.json`: extends `./tsconfig.a.json` back. -/
def cfgExtB : TsConfig := { raw := { extendsField := some "./tsconfig.a.json" } }

/-- A workspace whose project `proj` holds two tsconfig files extending
each other (an `extends` cycle). -/
def wExtCycle : World where
  content := fun p =>
    if p = "/ws/proj/tsconfig.a.json" then some 1
    else if p = "/ws/proj/tsconfig.b.json" then some 2
    else none
  dirs := fun p => p = "/ws" ∨ p = "/ws/proj"
  children := fun _ => []
  resolveModule := fun spec dir =>
    if spec = "./tsconfig.b.json" ∧ dir = "/ws/proj" then some "/ws/proj/tsconfig.b.json"
    else if spec = "./tsconfig.a.json" ∧ dir = "/ws/proj" then some "/ws/proj/tsconfig.a.json"
    else none
  parseTs := fun n => if n = 1 then cfgExtA else if n = 2 then cfgExtB else {}
  parsePkg := fun _ => {}


/-! ## C2: the `extends` loop never exits on a cycle -/

/-- One iteration of the `extends` loop from `tsconfig.a.json`. -/
theorem extCycleStepA (n : Nat) (files packages : List String) :
    extChainF wExtCycle (n + 1) "/ws/proj/tsconfig.a.json" cfgExtA files packages =
      extChainF wExtCycle n "/ws/proj/tsconfig.b.json" cfgExtB
        (insertUniq files "/ws/proj/tsconfig.b.json") packages := rfl

/-- One iteration of the `extends` loop from `tsconfig.b.json`. -/
theorem extCycleStepB (n : Nat) (files packages : List String) :
    extChainF wExtCycle (n + 1) "/ws/proj/tsconfig.b.json" cfgExtB files packages =
      extChainF wExtCycle n "/ws/proj/tsconfig.a.json" cfgExtA
        (insertUniq files "/ws/proj/tsconfig.a.json") packages := rfl

/-- On the two-config `extends` cycle, the loop body never reaches the exit
condition, whatever the accumulated state: every fuel is exhausted. -/
theorem extCycleDiverges : ∀ (fuel : Nat) (files packages : List String),
    (extChainF wExtCycle fuel "/ws/proj/tsconfig.a.json" cfgExtA files packages).completed = false ∧
    (extChainF wExtCycle fuel "/ws/proj/tsconfig.b.json" cfgExtB files packages).completed = false := by
  intro fuel
  induction fuel with
  | zero => exact fun files packages => ⟨rfl, rfl⟩
  | succ n ih =>
    intro files packages
    rw [extCycleStepA, extCycleStepB]
    exact ⟨(ih _ _).2, (ih _ _).1⟩

/-! ## C1: the reference walk never exits on an internal cycle -/

/-- One level of the reference walk from `a`'s config (which references
`b`): the walk visits `b` and recurses into it with a fresh empty
`projectReferences` record. -/
theorem walkCycleStepA (n : Nat) (s : List (String × TsConfig)) :
    walkPRF wRefCycle (internalVisitor wRefCycle "/ws" "proj") (n + 1)
        ["/ws/proj/b/tsconfig.json"] s [] =
      (let dres := walkPRF wRefCycle (internalVisitor wRefCycle "/ws" "proj") n
        ["/ws/proj/a/tsconfig.json"] (insertAssoc s "/ws/proj/b/tsconfig.json" cfgRefB) []
       if dres.2.2 then (dres.1, "/ws/proj/b/tsconfig.json" :: dres.2.1 ++ [], true)
       else (dres.1, "/ws/proj/b/tsconfig.json" :: dres.2.1, false)) := rfl

/-- One level of the reference walk from `b`'s config (which references
`a`). -/
theorem walkCycleStepB (n : Nat) (s : List (String × TsConfig)) :
    walkPRF wRefCycle (internalVisitor wRefCycle "/ws" "proj") (n + 1)
        ["/ws/proj/a/tsconfig.json"] s [] =
      (let dres := walkPRF wRefCycle (internalVisitor wRefCycle "/ws" "proj") n
        ["/ws/proj/b/tsconfig.json"] (insertAssoc s "/ws/proj/a/tsconfig.json" cfgRefA) []
       if dres.2.2 then (dres.1, "/ws/proj/a/tsconfig.json" :: dres.2.1 ++ [], true)
       else (dres.1, "/ws/proj/a/tsconfig.json" :: dres.2.1, false)) := rfl

/-- On the two-config internal `references` cycle, the recursion of
`walkProjectReferences` never bottoms out: every recursion depth is
exhausted, whatever the visitor state. -/
theorem walkCycleDiverges : ∀ (fuel : Nat) (s : List (String × TsConfig)),
    (walkPRF wRefCycle (internalVisitor wRefCycle "/ws" "proj") fuel
      ["/ws/proj/b/tsconfig.json"] s []).2.2 = false ∧
    (walkPRF wRefCycle (internalVisitor wRefCycle "/ws" "proj") fuel
      ["/ws/proj/a/tsconfig.json"] s []).2.2 = false := by
  intro fuel
  induction fuel with
  | zero => exact fun s => ⟨rfl, rfl⟩
  | succ n ih =>
    intro s
    rw [walkCycleStepA, walkCycleStepB]
    constructor
    · have h := (ih (insertAssoc s "/ws/proj/b/tsconfig.json" cfgRefB)).2
      simp only [h, Bool.false_eq_true, if_false]
    · have h := (ih (insertAssoc s "/ws/proj/a/tsconfig.json" cfgRefA)).1
      simp only [h, Bool.false_eq_true, if_false]

/-- C1: falsified by the code. On the cyclic internal `references` graph
`a ↔ b`, the traversal of `walkProjectReferences` as used by
`resolveInternalProjectReferences` never terminates — every recursion-depth
budget is exhausted — and its visitor is invoked more than once for the
same resolved configuration path (at depth 3 the invocation trace already
visits `b`'s config twice): the `// Already resolved` check reads a record
that is never populated and is reset to empty on every recursive call. -/
theorem C1_walkProjectReferences_cycle_diverges :
    (∀ fuel : Nat,
      (resolveInternalProjectReferences wRefCycle fuel cfgRefA "/ws" "proj").2.2 = false) ∧
    (resolveInternalProjectReferences wRefCycle 3 cfgRefA "/ws" "proj").2.1.count
        "/ws/proj/b/tsconfig.json" = 2 := by
  refine ⟨fun fuel => (walkCycleDiverges fuel []).1, ?_⟩
  decide

/-- C2: falsified by the code. On the cyclic `extends` chain
`tsconfig.a.json ↔ tsconfig.b.json`, the `while` loop of
`getExtendedConfigFiles` never reaches its exit condition: every iteration
budget is exhausted (the collected file set stabilises but the loop keeps
following the cycle). -/
theorem C2_getExtendedConfigFiles_cycle_diverges :
    ∀ fuel : Nat,
      (getExtendedConfigFiles wExtCycle fuel "/ws/proj/tsconfig.a.json" cfgExtA).completed
        = false :=
  fun fuel => (extCycleDiverges fuel [] []).1

/-! ## C9: degenerate inputs produce the empty result -/

/-- A concrete options record (typecheck enabled, build disabled). -/
def optsTypecheckOnly : NormalizedPluginOptions :=
  { typecheck := some ⟨"typecheck"⟩, build := none, verboseOutput := false }

/-- C9: `createNodesInternal` returns the empty result — not an error —
whenever the config file sits at the workspace root, or its directory
lacks both `package.json` and `project.json`, or it is a secondary config
without a sibling `tsconfig.json`, or the directory holds a Next.js
config file. -/
theorem C9_createNodesInternal_empty_result (w : World) (fuel : Nat)
    (configFilePath : String) (options : NormalizedPluginOptions)
    (workspaceRoot lockFileName : String) (namedInputs : List String)
    (targetsCache : CacheKey → Option (List (String × Target)))
    (h :
      dirname configFilePath = "." ∨
      ((w.children (pathJoin workspaceRoot (dirname configFilePath))).contains "package.json" = false ∧
        (w.children (pathJoin workspaceRoot (dirname configFilePath))).contains "project.json" = false) ∨
      (basename configFilePath ≠ "tsconfig.json" ∧
        (w.children (pathJoin workspaceRoot (dirname configFilePath))).contains "tsconfig.json" = false) ∨
      (w.children (pathJoin workspaceRoot (dirname configFilePath))).contains "next.config.js" = true ∨
      (w.children (pathJoin workspaceRoot (dirname configFilePath))).contains "next.config.cjs" = true ∨
      (w.children (pathJoin workspaceRoot (dirname configFilePath))).contains "next.config.mjs" = true ∨
      (w.children (pathJoin workspaceRoot (dirname configFilePath))).contains "next.config.ts" = true) :
    createNodesInternal w fuel configFilePath options workspaceRoot lockFileName
      namedInputs targetsCache = some ⟨[]⟩ := by
  unfold createNodesInternal
  simp only []
  split_ifs with h1 h2 h3 h4 <;> try rfl
  exfalso
  rcases h with h | h | h | h | h | h | h
  · exact h1 h
  · exact h2 h
  · exact h3 h
  · exact h4 (Or.inl h)
  · exact h4 (Or.inr (Or.inl h))
  · exact h4 (Or.inr (Or.inr (Or.inl h)))
  · exact h4 (Or.inr (Or.inr (Or.inr h)))

/-- Witness for C9 at a concrete input: a root-level `tsconfig.json`. -/
theorem C9_createNodesInternal_empty_result_witness :
    createNodesInternal wRefCycle 0 "tsconfig.json" optsTypecheckOnly "/ws" "package-lock.json"
      [] (fun _ => none) = some ⟨[]⟩ :=
  C9_createNodesInternal_empty_result wRefCycle 0 "tsconfig.json" optsTypecheckOnly
    "/ws" "package-lock.json" [] (fun _ => none) (Or.inl (by decide))

/-! ## C7: the reference classifier -/

theorem commonLen_le_left (a b : List String) : commonLen a b ≤ a.length := by
  induction a generalizing b with
  | nil => simp [commonLen]
  | cons x xs ih =>
    cases b with
    | nil => simp [commonLen]
    | cons y ys =>
      by_cases h : x = y
      · simp only [commonLen, if_pos h, List.length_cons]
        exact Nat.succ_le_succ (ih ys)
      · simp [commonLen, if_neg h]

theorem commonLen_eq_length_iff (a b : List String) :
    commonLen a b = a.length ↔ a <+: b := by
  induction a generalizing b with
  | nil => simp [commonLen]
  | cons x xs ih =>
    cases b with
    | nil =>
      simp only [commonLen, List.length_cons]
      constructor
      · intro h; exact absurd h (by omega)
      · intro h; exact absurd h (by simp)
    | cons y ys =>
      by_cases h : x = y
      · subst h
        have hstep : commonLen (x :: xs) (x :: ys) = commonLen xs ys + 1 := by
          simp [commonLen]
        rw [hstep, List.length_cons, List.cons_prefix_cons]
        constructor
        · intro hh; exact ⟨rfl, (ih ys).mp (by omega)⟩
        · intro hh; have := (ih ys).mpr hh.2; omega
      · have hstep : commonLen (x :: xs) (y :: ys) = 0 := by
          simp [commonLen, h]
        rw [hstep, List.length_cons, List.cons_prefix_cons]
        constructor
        · intro hh; omega
        · intro hh; exact absurd hh.1 h

theorem relStartsParent_eq_false (root cur : List String)
    (hpre : root <+: cur)
    (hclean : ∀ s ∈ cur, strStartsWith s ".." = false) :
    relStartsParent root cur = false := by
  have hc : commonLen root cur = root.length := (commonLen_eq_length_iff root cur).mpr hpre
  have hrel : relativeSegs root cur = cur.drop root.length := by
    unfold relativeSegs
    simp only []
    rw [hc, Nat.sub_self, List.replicate_zero, List.nil_append]
  unfold relStartsParent
  rw [hrel]
  cases hd : cur.drop root.length with
  | nil => decide
  | cons z zs =>
    have hz : z ∈ cur := by
      have hmem : z ∈ cur.drop root.length := by rw [hd]; exact List.mem_cons_self z zs
      exact List.mem_of_mem_drop hmem
    simp [List.headD, hclean z hz]

theorem relStartsParent_eq_true (root cur : List String)
    (hpre : ¬ root <+: cur) :
    relStartsParent root cur = true := by
  have hle := commonLen_le_left root cur
  have hne : commonLen root cur ≠ root.length := fun h =>
    hpre ((commonLen_eq_length_iff root cur).mp h)
  have hlt : commonLen root cur < root.length := Nat.lt_of_le_of_ne hle hne
  obtain ⟨m, hm⟩ : ∃ m, root.length - commonLen root cur = m + 1 :=
    ⟨root.length - commonLen root cur - 1, by omega⟩
  have hrel : relativeSegs root cur =
      ".." :: (List.replicate m ".." ++ cur.drop (commonLen root cur)) := by
    unfold relativeSegs
    simp only []
    rw [hm, List.replicate_succ, List.cons_append]
  unfold relStartsParent
  rw [hrel, List.headD_cons]
  decide

theorem upwalkExternal_spec (w : World) (root : List String) :
    ∀ (e : List String) (fuel : Nat), e.length < fuel →
      (upwalkExternal w root fuel (root ++ e) = true ↔
        ∃ e', e' ≠ [] ∧ e' <+: e ∧ hasProjectMarker w (root ++ e') = true) := by
  intro e
  induction e using List.reverseRecOn with
  | nil =>
    intro fuel hf
    obtain ⟨m, rfl⟩ : ∃ m, fuel = m + 1 := ⟨fuel - 1, by omega⟩
    simp only [upwalkExternal, List.append_nil, if_pos rfl]
    constructor
    · intro h; exact absurd h (by simp)
    · rintro ⟨e', h1, h2, _⟩; exact absurd (List.prefix_nil.mp h2) h1
  | append_singleton e₀ x ih =>
    intro fuel hf
    obtain ⟨m, rfl⟩ : ∃ m, fuel = m + 1 := ⟨fuel - 1, by omega⟩
    have hne : root ++ (e₀ ++ [x]) ≠ root := by
      intro hEq
      have hlen := congrArg List.length hEq
      simp at hlen
    rw [show upwalkExternal w root (m + 1) (root ++ (e₀ ++ [x])) =
        (if root ++ (e₀ ++ [x]) = root then false
         else if hasProjectMarker w (root ++ (e₀ ++ [x])) then true
         else upwalkExternal w root m (root ++ (e₀ ++ [x])).dropLast) from rfl]
    rw [if_neg hne]
    by_cases hm : hasProjectMarker w (root ++ (e₀ ++ [x])) = true
    · rw [if_pos hm]
      exact ⟨fun _ => ⟨e₀ ++ [x], by simp, List.prefix_refl _, hm⟩, fun _ => by trivial⟩
    · rw [if_neg hm]
      have hdrop : (root ++ (e₀ ++ [x])).dropLast = root ++ e₀ := by
        rw [← List.append_assoc, List.dropLast_concat]
      rw [hdrop]
      have hlen : e₀.length < m := by
        have := hf
        simp only [List.length_append, List.length_singleton] at this
        omega
      rw [ih m hlen]
      constructor
      · rintro ⟨e', h1, h2, h3⟩
        exact ⟨e', h1, h2.trans (List.prefix_append e₀ [x]), h3⟩
      · rintro ⟨e', h1, h2, h3⟩
        rcases List.prefix_concat_iff.mp h2 with hEq | hpre
        · rw [hEq] at h3; exact absurd h3 hm
        · exact ⟨e', h1, hpre, h3⟩

theorem isExternalCore_spec (w : World) (root cur : List String)
    (hclean : ∀ s ∈ cur, strStartsWith s ".." = false) :
    isExternalCore w root cur = true ↔
      (¬ root <+: cur ∨
        ∃ p, root <+: p ∧ p <+: cur ∧ p ≠ root ∧ hasProjectMarker w p = true) := by
  unfold isExternalCore
  by_cases hpre : root <+: cur
  · rw [relStartsParent_eq_false root cur hpre hclean]
    simp only [Bool.false_eq_true, if_false]
    obtain ⟨e, rfl⟩ := hpre
    have hfuel : e.length < (root ++ e).length + 1 := by
      simp only [List.length_append]; omega
    rw [upwalkExternal_spec w root e _ hfuel]
    constructor
    · rintro ⟨e', h1, h2, h3⟩
      refine Or.inr ⟨root ++ e', List.prefix_append _ _,
        (List.prefix_append_right_inj root).mpr h2, ?_, h3⟩
      intro hEq
      apply h1
      have hlen := congrArg List.length hEq
      simp only [List.length_append] at hlen
      exact List.eq_nil_of_length_eq_zero (by omega)
    · rintro (h | ⟨p, hp1, hp2, hp3, hp4⟩)
      · exact absurd (List.prefix_append root e) h
      · obtain ⟨e', rfl⟩ := hp1
        refine ⟨e', ?_, (List.prefix_append_right_inj root).mp hp2, hp4⟩
        intro hEq
        exact hp3 (by rw [hEq, List.append_nil])
  · rw [relStartsParent_eq_true root cur hpre]
    simp only [if_true]
    exact ⟨fun _ => Or.inl hpre, fun _ => by trivial⟩

/-- C7: `isExternalProjectReference` classifies a reference as external
exactly when the resolved directory (parent directory for a file path, the
path itself for a directory) lies outside the unit root — i.e. the root's
segments are not a prefix of its segments — or when some directory on the
upward walk, inclusive of the referenced directory and exclusive of the
unit root, contains a `package.json` or `project.json`; otherwise it is
internal. (`hclean` says the resolved directory is a canonical absolute
path: no segment starting with `..`.) -/
theorem C7_isExternalProjectReference_classification (w : World)
    (refTsConfigPath workspaceRoot projectRoot : String)
    (hclean : ∀ s ∈ normalizeSegs true (splitPath (getTsConfigDirName w refTsConfigPath)),
      strStartsWith s ".." = false) :
    isExternalProjectReference w refTsConfigPath workspaceRoot projectRoot = true ↔
      (¬ normalizeSegs true (splitPath (pathJoin workspaceRoot projectRoot)) <+:
          normalizeSegs true (splitPath (getTsConfigDirName w refTsConfigPath)) ∨
        ∃ p, normalizeSegs true (splitPath (pathJoin workspaceRoot projectRoot)) <+: p ∧
          p <+: normalizeSegs true (splitPath (getTsConfigDirName w refTsConfigPath)) ∧
          p ≠ normalizeSegs true (splitPath (pathJoin workspaceRoot projectRoot)) ∧
          hasProjectMarker w p = true) := by
  unfold isExternalProjectReference
  exact isExternalCore_spec w _ _ hclean

/-- Witness for C7: the internal reference `b` of the cyclic world. -/
theorem C7_isExternalProjectReference_classification_witness :
    isExternalProjectReference wRefCycle "/ws/proj/b/tsconfig.json" "/ws" "proj" = true ↔
      (¬ normalizeSegs true (splitPath (pathJoin "/ws" "proj")) <+:
          normalizeSegs true (splitPath (getTsConfigDirName wRefCycle "/ws/proj/b/tsconfig.json")) ∨
        ∃ p, normalizeSegs true (splitPath (pathJoin "/ws" "proj")) <+: p ∧
          p <+: normalizeSegs true (splitPath (getTsConfigDirName wRefCycle "/ws/proj/b/tsconfig.json")) ∧
          p ≠ normalizeSegs true (splitPath (pathJoin "/ws" "proj")) ∧
          hasProjectMarker wRefCycle p = true) :=
  C7_isExternalProjectReference_classification wRefCycle "/ws/proj/b/tsconfig.json"
    "/ws" "proj" (by decide)

/-! ## C8: broken references are skipped silently -/

/-- Unfolding equation of `walkListAux` at a cons cell. -/
theorem walkListAux_cons {σ : Type} (w : World) (vis : String → TsConfig → σ → σ × Bool)
    (deep : Option (TsConfig → σ → σ × List String × Bool))
    (r : String) (rest : List String) (s : σ) (visited : List String) :
    walkListAux w vis deep (r :: rest) s visited =
      (if visited.contains r then walkListAux w vis deep rest s visited
       else if fsExists w r = false then walkListAux w vis deep rest s visited
       else
         let rp := if strEndsWith r ".json" then r else pathJoin r "tsconfig.json"
         let rc := readTs w rp
         let sc := vis rp rc s
         if sc.2 then
           match deep with
           | none => (sc.1, [rp], false)
           | some d =>
             let dres := d rc sc.1
             if dres.2.2 then
               let cont := walkListAux w vis deep rest dres.1 visited
               (cont.1, rp :: dres.2.1 ++ cont.2.1, cont.2.2)
             else (dres.1, rp :: dres.2.1, false)
         else
           let cont := walkListAux w vis deep rest sc.1 visited
           (cont.1, rp :: cont.2.1, cont.2.2)) := rfl

theorem walkListAux_skip_broken {σ : Type} (w : World)
    (vis : String → TsConfig → σ → σ × Bool)
    (deep : Option (TsConfig → σ → σ × List String × Bool))
    (p : String) (h : fsExists w p = false) :
    ∀ (l1 l2 : List String) (s : σ) (visited : List String),
      walkListAux w vis deep (l1 ++ p :: l2) s visited =
        walkListAux w vis deep (l1 ++ l2) s visited := by
  intro l1
  induction l1 with
  | nil =>
    intro l2 s visited
    rw [List.nil_append, List.nil_append, walkListAux_cons]
    by_cases hv : visited.contains p
    · rw [if_pos hv]
    · rw [if_neg hv, if_pos h]
  | cons r l1' ih =>
    intro l2 s visited
    rw [List.cons_append, List.cons_append, walkListAux_cons, walkListAux_cons]
    simp only [ih]

/-- C8: a project reference whose target path does not exist is skipped
without any effect: the traversal — whatever the visitor, the fuel, the
accumulated state — produces the same visitor state, the same invocation
trace (so the broken target is neither loaded, visited, nor recursed
into), and the same completion flag as the traversal of the reference list
with the broken entry removed. -/
theorem C8_walkProjectReferences_skips_broken {σ : Type} (w : World)
    (vis : String → TsConfig → σ → σ × Bool) (fuel : Nat)
    (l1 l2 : List String) (p : String) (s : σ) (visited : List String)
    (h : fsExists w p = false) :
    walkPRF w vis fuel (l1 ++ p :: l2) s visited =
      walkPRF w vis fuel (l1 ++ l2) s visited := by
  cases fuel with
  | zero => exact walkListAux_skip_broken w vis none p h l1 l2 s visited
  | succ n => exact walkListAux_skip_broken w vis _ p h l1 l2 s visited

/-- Witness for C8: a missing reference ahead of `b`'s config changes
nothing in the internal-reference traversal. -/
theorem C8_walkProjectReferences_skips_broken_witness :
    walkPRF wRefCycle (internalVisitor wRefCycle "/ws" "proj") 2
        ["/ws/proj/missing/tsconfig.json", "/ws/proj/b/tsconfig.json"] [] [] =
      walkPRF wRefCycle (internalVisitor wRefCycle "/ws" "proj") 2
        ["/ws/proj/b/tsconfig.json"] [] [] :=
  C8_walkProjectReferences_skips_broken wRefCycle
    (internalVisitor wRefCycle "/ws" "proj") 2 [] ["/ws/proj/b/tsconfig.json"]
    "/ws/proj/missing/tsconfig.json" [] [] (by decide)

/-! ## C6: outFile mode yields exactly the bundle artefact set -/

theorem mem_insertUniq (l : List String) (y x : String) :
    x ∈ insertUniq l y ↔ x ∈ l ∨ x = y := by
  unfold insertUniq
  by_cases h : l.contains y
  · rw [if_pos h]
    constructor
    · exact Or.inl
    · rintro (hx | rfl)
      · exact hx
      · exact List.mem_of_elem_eq_true h
  · rw [if_neg h]
    simp [List.mem_append]

theorem foldl_insertUniq_subset (l : List String) :
    ∀ (acc : List String) (x : String), x ∈ List.foldl insertUniq acc l → x ∈ acc ∨ x ∈ l := by
  induction l with
  | nil => intro acc x hx; exact Or.inl hx
  | cons y l ih =>
    intro acc x hx
    rw [List.foldl_cons] at hx
    rcases ih (insertUniq acc y) x hx with hcase | hcase
    · rcases (mem_insertUniq acc y x).mp hcase with hcase2 | rfl
      · exact Or.inl hcase2
      · exact Or.inr (List.mem_cons_self _ _)
    · exact Or.inr (List.mem_cons_of_mem _ hcase)

theorem foldl_insertUniq_append (l : List String) :
    ∀ (acc : List String), acc.Nodup → (∀ x ∈ l, x ∉ acc) → l.Nodup →
      List.foldl insertUniq acc l = acc ++ l := by
  induction l with
  | nil => intro acc _ _ _; simp
  | cons y l ih =>
    intro acc hacc hdisj hl
    rw [List.foldl_cons]
    have hy : acc.contains y = false := by
      rw [Bool.eq_false_iff]
      intro hc
      exact hdisj y (List.mem_cons_self _ _) (List.mem_of_elem_eq_true hc)
    have hins : insertUniq acc y = acc ++ [y] := by
      unfold insertUniq
      rw [hy]
      simp
    rw [hins, ih (acc ++ [y]) ?_ ?_ (List.nodup_cons.mp hl).2, List.append_assoc]
    · rfl
    · rw [List.nodup_append]
      refine ⟨hacc, List.nodup_singleton y, ?_⟩
      intro a ha hb
      rw [List.mem_singleton] at hb
      subst hb
      exact hdisj a (List.mem_cons_self _ _) ha
    · intro x hx
      rw [List.mem_append, List.mem_singleton]
      rintro (hx2 | rfl)
      · exact hdisj x (List.mem_cons_of_mem _ hx) hx2
      · exact (List.nodup_cons.mp hl).1 hx

/-- The set of in-place output glob patterns used by `getOutputs` when
neither `outFile` nor `outDir` is set. -/
def inPlaceOutputGlobs : List String :=
  ["**/*.js", "**/*.cjs", "**/*.mjs", "**/*.jsx", "**/*.js.map", "**/*.jsx.map",
   "**/*.d.ts", "**/*.d.cts", "**/*.d.mts", "**/*.d.ts.map", "**/*.d.cts.map",
   "**/*.d.mts.map"].map (joinPathFragments "{projectRoot}")

/-- The five candidate outputs of the bundled-output (`outFile`) branch of
`getOutputs`: the bundle, its map, its declaration file, the declaration
map, and one incremental-build metadata path (the explicit
`tsBuildInfoFile` when configured, else the default next to the bundle). -/
def outFileModeOutputs (cfg : TsConfig) (f workspaceRoot projectRoot : String) : List String :=
  let outFileName := basenameExt f ".js"
  let outDirRel := relativeStr workspaceRoot (dirname f)
  [pathToInputOrOutput f workspaceRoot projectRoot,
   pathToInputOrOutput (joinPathFragments outDirRel (outFileName ++ ".js.map")) workspaceRoot projectRoot,
   pathToInputOrOutput (joinPathFragments outDirRel (outFileName ++ ".d.ts")) workspaceRoot projectRoot,
   pathToInputOrOutput (joinPathFragments outDirRel (outFileName ++ ".d.ts.map")) workspaceRoot projectRoot,
   match cfg.options.tsBuildInfoFile with
   | some bi => pathToInputOrOutput bi workspaceRoot projectRoot
   | none =>
     pathToInputOrOutput (joinPathFragments outDirRel (outFileName ++ ".tsbuildinfo"))
       workspaceRoot projectRoot]

/-- C6: with `outFile` set and no internal project references, `getOutputs`
returns exactly the five bundle artefacts (deduplicated insertion of the
five candidates; equal to the five-element list whenever the candidates are
distinct, as in the concrete witness) and nothing else — in particular none
of the in-place glob patterns. -/
theorem C6_getOutputs_outFile_mode (cfg : TsConfig) (f workspaceRoot projectRoot cfgPath : String)
    (h : cfg.options.outFile = some f) :
    getOutputs cfgPath cfg [] workspaceRoot projectRoot =
      List.foldl insertUniq [] (outFileModeOutputs cfg f workspaceRoot projectRoot) ∧
    (∀ x ∈ getOutputs cfgPath cfg [] workspaceRoot projectRoot,
      x ∈ outFileModeOutputs cfg f workspaceRoot projectRoot) ∧
    ((outFileModeOutputs cfg f workspaceRoot projectRoot).Nodup →
      getOutputs cfgPath cfg [] workspaceRoot projectRoot =
        outFileModeOutputs cfg f workspaceRoot projectRoot) := by
  have h1 : getOutputs cfgPath cfg [] workspaceRoot projectRoot =
      getOutputsOne cfgPath cfg.options cfg workspaceRoot projectRoot [] := rfl
  have h2 : getOutputs cfgPath cfg [] workspaceRoot projectRoot =
      List.foldl insertUniq [] (outFileModeOutputs cfg f workspaceRoot projectRoot) := by
    rw [h1]
    unfold getOutputsOne
    rw [h]
    simp only [outFileModeOutputs, List.foldl]
  refine ⟨h2, ?_, ?_⟩
  · intro x hx
    rw [h2] at hx
    rcases foldl_insertUniq_subset _ [] x hx with hc | hc
    · exact absurd hc (List.not_mem_nil x)
    · exact hc
  · intro hnd
    rw [h2, foldl_insertUniq_append _ [] List.nodup_nil (by simp) hnd, List.nil_append]

/-- A config in bundled-output mode with the default metadata path. -/
def cfgOutFileDefault : TsConfig :=
  { options := { outFile := some "/ws/proj/dist/bundle.js" }, fileNames := ["src/main.ts"] }

/-- A config in bundled-output mode with an explicit `tsBuildInfoFile`. -/
def cfgOutFileExplicit : TsConfig :=
  { options := { outFile := some "/ws/proj/dist/bundle.js",
                 tsBuildInfoFile := some "/ws/proj/tmp/bundle.tsbuildinfo" },
    fileNames := ["src/main.ts"] }

/-- Witness for C6: at `outFile = /ws/proj/dist/bundle.js` the returned
list is exactly the five artefacts (default metadata path next to the
bundle, or the explicit `tsBuildInfoFile` when configured) and contains no
in-place glob pattern. -/
theorem C6_getOutputs_outFile_mode_witness :
    getOutputs "/ws/proj/tsconfig.json" cfgOutFileDefault [] "/ws" "proj" =
      ["{projectRoot}/dist/bundle.js", "{projectRoot}/dist/bundle.js.map",
       "{projectRoot}/dist/bundle.d.ts", "{projectRoot}/dist/bundle.d.ts.map",
       "{projectRoot}/dist/bundle.tsbuildinfo"] ∧
    (∀ g ∈ inPlaceOutputGlobs,
      g ∉ getOutputs "/ws/proj/tsconfig.json" cfgOutFileDefault [] "/ws" "proj") ∧
    getOutputs "/ws/proj/tsconfig.json" cfgOutFileExplicit [] "/ws" "proj" =
      ["{projectRoot}/dist/bundle.js", "{projectRoot}/dist/bundle.js.map",
       "{projectRoot}/dist/bundle.d.ts", "{projectRoot}/dist/bundle.d.ts.map",
       "{projectRoot}/tmp/bundle.tsbuildinfo"] :=
  ⟨(C6_getOutputs_outFile_mode cfgOutFileDefault "/ws/proj/dist/bundle.js" "/ws" "proj"
      "/ws/proj/tsconfig.json" rfl).2.2 (by decide),
   by decide,
   (C6_getOutputs_outFile_mode cfgOutFileExplicit "/ws/proj/dist/bundle.js" "/ws" "proj"
      "/ws/proj/tsconfig.json" rfl).2.2 (by decide)⟩

/-! ## C5 and C10: build-target emission and `package.json` validation -/

/-- Build options: target `build`, config `tsconfig.lib.json`. -/
def bOptsLib : BuildOptions :=
  { targetName := "build", configName := "tsconfig.lib.json" }

/-- Plugin options with only the build target enabled. -/
def optsBuildOnly : NormalizedPluginOptions :=
  { typecheck := none, build := some bOptsLib, verboseOutput := false }

/-- C5 (general part): with typechecking disabled and the build target
enabled, `buildTscTargets` emits a target named `b.targetName` exactly when
the config file's basename equals the configured build config name and
`isValidPackageJsonBuildConfig` holds. -/
theorem buildTarget_emitted_iff (w : World) (fuel : Nat) (ni : List String)
    (cfgPath projRoot ws : String) (b : BuildOptions) (verb : Bool)
    (ts : List (String × Target))
    (h : buildTscTargets w fuel ni cfgPath projRoot ⟨none, some b, verb⟩ ws = some ts) :
    ((ts.map Prod.fst).contains b.targetName = true) ↔
      (basename cfgPath = b.configName ∧
        isValidPackageJsonBuildConfig w (readTs w cfgPath) ws projRoot = true) := by
  unfold buildTscTargets at h
  by_cases hcond : basename cfgPath = b.configName ∧
      isValidPackageJsonBuildConfig w (readTs w cfgPath) ws projRoot = true
  · simp only [Bind.bind, Option.bind, if_pos hcond] at h
    cases hdone : (resolveInternalProjectReferences w fuel (readTs w cfgPath) ws projRoot).2.2 with
    | false => rw [if_pos hdone] at h; exact absurd h (by simp)
    | true =>
      rw [if_neg (by rw [hdone]; simp)] at h
      cases hg : getInputs w fuel ni cfgPath (readTs w cfgPath)
          (resolveInternalProjectReferences w fuel (readTs w cfgPath) ws projRoot).1 ws projRoot with
      | none => rw [hg] at h; exact absurd h (by simp)
      | some inputs =>
        rw [hg] at h
        simp only [Option.some_bind, Option.some.injEq] at h
        subst h
        simp only [addBuildAndWatchDepsTargets, insertTarget, List.any_nil,
          Bool.false_eq_true, if_false, List.nil_append, List.map_cons, List.map_nil]
        simp [hcond]
  · simp only [Bind.bind, Option.bind, if_neg hcond] at h
    have hts : ts = [] := by
      cases h; rfl
    subst hts
    constructor
    · intro hc; exact absurd hc (by simp [List.contains])
    · intro hc; exact absurd hc hcond

/-- A config with `outDir: "dist"`. -/
def cfgOutDirDist : TsConfig :=
  { options := { outDir := some "dist" }, fileNames := ["src/index.ts"] }

/-- A config with neither `outFile` nor `outDir`. -/
def cfgNoOut : TsConfig := { fileNames := ["src/index.ts"] }

/-- `package.json` declaring `"main": "src/index.ts"`. -/
def pkgMainSrcTs : PkgJson := { main := some "src/index.ts" }

/-- `package.json` declaring `"exports": {".": "./dist/index.js"}`. -/
def pkgExportsDist : PkgJson :=
  { exportsField := some (.map [(".", .str "./dist/index.js")]) }

/-- `package.json` declaring `"main": "./src/index.js"` (a compiled-looking
path inside the source tree). -/
def pkgMainSrcJs : PkgJson := { main := some "./src/index.js" }

/-- Shared demo parsers for the build-validation worlds. -/
def parseTsDemo : Nat → TsConfig := fun n =>
  if n = 1 then cfgOutDirDist else if n = 5 then cfgNoOut else {}

def parsePkgDemo : Nat → PkgJson := fun n =>
  if n = 2 then pkgMainSrcTs else if n = 3 then pkgExportsDist
  else if n = 4 then pkgMainSrcJs else {}

/-- A project `proj` with `tsconfig.lib.json` (payload `tsPayload`) and a
`package.json` (payload `pkgPayload`). -/
def mkBuildWorld (pkgPayload tsPayload : Nat) : World where
  content := fun p =>
    if p = "/ws/proj/tsconfig.lib.json" then some tsPayload
    else if p = "/ws/proj/package.json" then some pkgPayload
    else none
  dirs := fun p => p = "/ws" ∨ p = "/ws/proj"
  children := fun _ => []
  resolveModule := fun _ _ => none
  parseTs := parseTsDemo
  parsePkg := parsePkgDemo

/-- `main: src/index.ts` with `outDir: dist`. -/
def wBuildMain : World := mkBuildWorld 2 1

/-- `exports: {".": "./dist/index.js"}` with `outDir: dist`. -/
def wBuildExports : World := mkBuildWorld 3 1

/-- `main: ./src/index.js` with neither `outFile` nor `outDir`. -/
def wInPlaceJs : World := mkBuildWorld 4 5


/-- C5: a build task definition is emitted exactly when the config file's
basename equals the configured build config name and
`isValidPackageJsonBuildConfig` holds (general part, with typechecking
disabled so the targets record isolates the build branch); in particular,
with `outDir: "dist"`, a `package.json` with `"main": "src/index.ts"`
fails validation and no build target is emitted, while one with
`"exports": {".": "./dist/index.js"}` passes validation and the build
target is emitted. -/
theorem C5_build_target_emission :
    (∀ (w : World) (fuel : Nat) (ni : List String) (cfgPath projRoot ws : String)
      (b : BuildOptions) (verb : Bool) (ts : List (String × Target)),
      buildTscTargets w fuel ni cfgPath projRoot ⟨none, some b, verb⟩ ws = some ts →
        (((ts.map Prod.fst).contains b.targetName = true) ↔
          (basename cfgPath = b.configName ∧
            isValidPackageJsonBuildConfig w (readTs w cfgPath) ws projRoot = true))) ∧
    isValidPackageJsonBuildConfig wBuildMain
      (readTs wBuildMain "/ws/proj/tsconfig.lib.json") "/ws" "proj" = false ∧
    buildTscTargets wBuildMain 1 [] "/ws/proj/tsconfig.lib.json" "proj"
      optsBuildOnly "/ws" = some [] ∧
    isValidPackageJsonBuildConfig wBuildExports
      (readTs wBuildExports "/ws/proj/tsconfig.lib.json") "/ws" "proj" = true ∧
    ((buildTscTargets wBuildExports 1 [] "/ws/proj/tsconfig.lib.json" "proj"
      optsBuildOnly "/ws").getD []).map Prod.fst = ["build"] :=
  ⟨buildTarget_emitted_iff, by decide, by decide, by decide, by decide⟩

/-- Witness for C5: the general emission criterion applied to the
`exports`-into-`dist` scenario. -/
theorem C5_build_target_emission_witness :
    ((((buildTscTargets wBuildExports 1 [] "/ws/proj/tsconfig.lib.json" "proj"
          optsBuildOnly "/ws").getD []).map Prod.fst).contains bOptsLib.targetName = true) ↔
      (basename "/ws/proj/tsconfig.lib.json" = bOptsLib.configName ∧
        isValidPackageJsonBuildConfig wBuildExports
          (readTs wBuildExports "/ws/proj/tsconfig.lib.json") "/ws" "proj" = true) :=
  C5_build_target_emission.1 wBuildExports 1 [] "/ws/proj/tsconfig.lib.json" "proj"
    "/ws" bOptsLib false
    ((buildTscTargets wBuildExports 1 [] "/ws/proj/tsconfig.lib.json" "proj"
      optsBuildOnly "/ws").getD [])
    (by decide)

/-- C10: with neither `outFile` nor `outDir` set, the source-file check of
`isValidPackageJsonBuildConfig` is by file extension alone; hence a
`package.json` whose `main` points at `./src/index.js` — a `.js` path
inside the source tree — still passes validation and a build target is
emitted for it. -/
theorem C10_no_outdir_extension_only :
    (∀ (tsConfig : TsConfig) (ws proj path : String),
      tsConfig.options.outFile = none → tsConfig.options.outDir = none →
      isPathSourceFile tsConfig ws proj path =
        [".ts", ".tsx", ".cts", ".mts"].contains (extname path)) ∧
    isPathSourceFile cfgNoOut "/ws" "proj" "./src/index.js" = false ∧
    isValidPackageJsonBuildConfig wInPlaceJs
      (readTs wInPlaceJs "/ws/proj/tsconfig.lib.json") "/ws" "proj" = true ∧
    ((buildTscTargets wInPlaceJs 1 [] "/ws/proj/tsconfig.lib.json" "proj"
      optsBuildOnly "/ws").getD []).map Prod.fst = ["build"] ∧
    (buildTscTargets wInPlaceJs 1 [] "/ws/proj/tsconfig.lib.json" "proj"
      optsBuildOnly "/ws").isSome = true := by
  refine ⟨?_, by decide, by decide, by decide, by decide⟩
  intro tsConfig ws proj path h1 h2
  unfold isPathSourceFile
  rw [h1, h2]

/-- Witness for C10: the extension-only classification at the concrete
`.js` entry point. -/
theorem C10_no_outdir_extension_only_witness :
    isPathSourceFile cfgNoOut "/ws" "proj" "./src/index.js" =
      [".ts", ".tsx", ".cts", ".mts"].contains (extname "./src/index.js") :=
  C10_no_outdir_extension_only.1 cfgNoOut "/ws" "proj" "./src/index.js" rfl rfl

/-! ## C4: exclude-pattern reconciliation in `getInputs` -/

/-- Unit-root config: `include: ["src"]`, referencing the feature config. -/
def cfgRootSrc : TsConfig :=
  { raw := { includeField := some ["src"] },
    projectReferences := ["/ws/proj/tsconfig.feature.json"] }

/-- Unit-root config variant whose include (`src/**`) also matches the
excluded path. -/
def cfgRootGlob : TsConfig :=
  { raw := { includeField := some ["src/**"] },
    projectReferences := ["/ws/proj/tsconfig.feature.json"] }

/-- Internal-referenced config: `include: ["src/feature"]`,
`exclude: ["src/feature/ignored"]`. -/
def cfgFeature : TsConfig :=
  { raw := { includeField := some ["src/feature"],
             excludeField := some ["src/feature/ignored"] } }

/-- World for the exclude-reconciliation scenario. -/
def wInputs : World where
  content := fun p =>
    if p = "/ws/proj/tsconfig.json" then some 1
    else if p = "/ws/proj/tsconfig.feature.json" then some 2
    else if p = "/ws/proj/package.json" then some 9
    else none
  dirs := fun p => p = "/ws" ∨ p = "/ws/proj"
  children := fun _ => []
  resolveModule := fun _ _ => none
  parseTs := fun n => if n = 1 then cfgRootSrc else if n = 2 then cfgFeature
    else if n = 3 then cfgRootGlob else {}
  parsePkg := fun _ => {}

/-- C4: in the scenario of a unit-root config with `include: ["src"]` and
an internal-referenced config with `include: ["src/feature"]`,
`exclude: ["src/feature/ignored"]`, no include of a different involved
config overlaps the exclude (glob containment in both directions), so the
derived inputs contain the negated entry for `src/feature/ignored`; when
the root config's include (`src/**`) does match the excluded path, the
negated entry is omitted. -/
theorem C4_getInputs_exclude_reconciliation :
    (getInputs wInputs 2 [] "/ws/proj/tsconfig.json" cfgRootSrc
      [("/ws/proj/tsconfig.feature.json", cfgFeature)] "/ws" "proj").isSome = true ∧
    ((getInputs wInputs 2 [] "/ws/proj/tsconfig.json" cfgRootSrc
      [("/ws/proj/tsconfig.feature.json", cfgFeature)] "/ws" "proj").getD []).contains
        (Input.str "!{projectRoot}/src/feature/ignored") = true ∧
    (getInputs wInputs 2 [] "/ws/proj/tsconfig.json" cfgRootGlob
      [("/ws/proj/tsconfig.feature.json", cfgFeature)] "/ws" "proj").isSome = true ∧
    ((getInputs wInputs 2 [] "/ws/proj/tsconfig.json" cfgRootGlob
      [("/ws/proj/tsconfig.feature.json", cfgFeature)] "/ws" "proj").getD []).contains
        (Input.str "!{projectRoot}/src/feature/ignored") = false := by
  refine ⟨by decide, by decide, by decide, by decide⟩

/-! ## C3: cache-key soundness

Two worlds that agree everywhere except on the content of one existing
file `f` (same filesystem shape, same parsers) yield different composite
cache keys whenever `f` belongs to the influencing file list, the two key
computations complete, and the two contents differ. -/

/-- `w'` is `w` with only the content of the (existing) file `f` changed. -/
structure AgreeExcept (w w' : World) (f : String) : Prop where
  dirs_eq : w'.dirs = w.dirs
  children_eq : w'.children = w.children
  resolveModule_eq : w'.resolveModule = w.resolveModule
  parseTs_eq : w'.parseTs = w.parseTs
  parsePkg_eq : w'.parsePkg = w.parsePkg
  content_eq : ∀ p, p ≠ f → w'.content p = w.content p
  isSome_f : (w.content f).isSome = true
  isSome_f' : (w'.content f).isSome = true

namespace AgreeExcept

variable {w w' : World} {f : String}

theorem fsExists_eq (h : AgreeExcept w w' f) (p : String) :
    fsExists w' p = fsExists w p := by
  by_cases hp : p = f
  · subst hp
    unfold fsExists
    rw [h.dirs_eq, h.isSome_f, h.isSome_f']
  · unfold fsExists
    rw [h.dirs_eq, h.content_eq p hp]

theorem fsIsFile_eq (h : AgreeExcept w w' f) (p : String) :
    fsIsFile w' p = fsIsFile w p := by
  by_cases hp : p = f
  · subst hp
    unfold fsIsFile
    rw [h.isSome_f, h.isSome_f']
  · unfold fsIsFile
    rw [h.content_eq p hp]

theorem readTs_eq (h : AgreeExcept w w' f) (p : String) (hp : p ≠ f) :
    readTs w' p = readTs w p := by
  unfold readTs
  rw [h.content_eq p hp, h.parseTs_eq]

theorem hasProjectMarker_eq (h : AgreeExcept w w' f) (d : List String) :
    hasProjectMarker w' d = hasProjectMarker w d := by
  unfold hasProjectMarker
  rw [h.fsExists_eq, h.fsExists_eq]

theorem upwalkExternal_eq (h : AgreeExcept w w' f) (root : List String) :
    ∀ (fuel : Nat) (cur : List String),
      upwalkExternal w' root fuel cur = upwalkExternal w root fuel cur := by
  intro fuel
  induction fuel with
  | zero => intro cur; rfl
  | succ n ih =>
    intro cur
    unfold upwalkExternal
    rw [h.hasProjectMarker_eq, ih]

theorem isExternal_eq (h : AgreeExcept w w' f) (rp ws proj : String) :
    isExternalProjectReference w' rp ws proj = isExternalProjectReference w rp ws proj := by
  unfold isExternalProjectReference isExternalCore getTsConfigDirName
  simp only [h.fsIsFile_eq, h.upwalkExternal_eq, h.hasProjectMarker_eq]

theorem internalVisitor_eq (h : AgreeExcept w w' f) (ws proj : String) :
    internalVisitor w' ws proj = internalVisitor w ws proj := by
  funext cp c s
  unfold internalVisitor
  rw [h.isExternal_eq]

theorem shallowVisitor_eq (h : AgreeExcept w w' f) (ws proj : String) :
    shallowVisitor w' ws proj = shallowVisitor w ws proj := by
  funext cp c s
  unfold shallowVisitor
  rw [h.isExternal_eq]

theorem resolveExtended_eq (h : AgreeExcept w w' f) (spec dir : String) :
    resolveExtendedTsConfigPath w' spec dir = resolveExtendedTsConfigPath w spec dir := by
  unfold resolveExtendedTsConfigPath
  rw [h.resolveModule_eq]

end AgreeExcept

/-! ### `extends`-chain lemmas for cache-key soundness -/

theorem insertUniq_append (l : List String) (x : String) :
    ∃ e, insertUniq l x = l ++ e := by
  unfold insertUniq
  by_cases h : l.contains x
  · exact ⟨[], by rw [if_pos h, List.append_nil]⟩
  · exact ⟨[x], by rw [if_neg h]⟩

theorem insertUniq_of_not_mem (l : List String) (x : String) (h : x ∉ l) :
    insertUniq l x = l ++ [x] := by
  unfold insertUniq
  rw [if_neg ?_]
  intro hc
  exact h (List.mem_of_elem_eq_true hc)

theorem extChainF_stop (w : World) (fuel : Nat) (path : String) (cfg : TsConfig)
    (files packages : List String) (h : extChainNext w path cfg = none) :
    extChainF w fuel path cfg files packages = ⟨files, packages, true⟩ := by
  unfold extChainF
  rw [h]

theorem extChainF_pkg (w : World) (fuel : Nat) (path : String) (cfg : TsConfig)
    (files packages : List String) (ext : ResolvedExtendedConfig) (pkg : String)
    (h : extChainNext w path cfg = some ext) (hp : ext.externalPackage = some pkg) :
    extChainF w fuel path cfg files packages = ⟨files, insertUniq packages pkg, true⟩ := by
  unfold extChainF
  simp only [h, hp]

theorem extChainF_follow_zero (w : World) (path : String) (cfg : TsConfig)
    (files packages : List String) (ext : ResolvedExtendedConfig)
    (h : extChainNext w path cfg = some ext) (hp : ext.externalPackage = none) :
    extChainF w 0 path cfg files packages =
      ⟨insertUniq files ext.filePath, packages, false⟩ := by
  unfold extChainF
  simp only [h, hp]

theorem extChainF_follow_succ (w : World) (n : Nat) (path : String) (cfg : TsConfig)
    (files packages : List String) (ext : ResolvedExtendedConfig)
    (h : extChainNext w path cfg = some ext) (hp : ext.externalPackage = none) :
    extChainF w (n + 1) path cfg files packages =
      extChainF w n ext.filePath (readTs w ext.filePath)
        (insertUniq files ext.filePath) packages := by
  conv_lhs => unfold extChainF
  simp only [h, hp]

theorem extChainF_files_mono (w : World) :
    ∀ (fuel : Nat) (path : String) (cfg : TsConfig) (files packages : List String),
      ∃ e, (extChainF w fuel path cfg files packages).files = files ++ e := by
  intro fuel
  induction fuel with
  | zero =>
    intro path cfg files packages
    cases hn : extChainNext w path cfg with
    | none => exact ⟨[], by rw [extChainF_stop w 0 path cfg files packages hn, List.append_nil]⟩
    | some ext =>
      cases hp : ext.externalPackage with
      | some pkg =>
        exact ⟨[], by rw [extChainF_pkg w 0 path cfg files packages ext pkg hn hp, List.append_nil]⟩
      | none =>
        obtain ⟨e, he⟩ := insertUniq_append files ext.filePath
        exact ⟨e, by rw [extChainF_follow_zero w path cfg files packages ext hn hp]; exact he⟩
  | succ n ih =>
    intro path cfg files packages
    cases hn : extChainNext w path cfg with
    | none => exact ⟨[], by rw [extChainF_stop w (n+1) path cfg files packages hn, List.append_nil]⟩
    | some ext =>
      cases hp : ext.externalPackage with
      | some pkg =>
        exact ⟨[], by
          rw [extChainF_pkg w (n+1) path cfg files packages ext pkg hn hp, List.append_nil]⟩
      | none =>
        obtain ⟨e1, he1⟩ := insertUniq_append files ext.filePath
        obtain ⟨e2, he2⟩ := ih ext.filePath (readTs w ext.filePath)
          (insertUniq files ext.filePath) packages
        refine ⟨e1 ++ e2, ?_⟩
        rw [extChainF_follow_succ w n path cfg files packages ext hn hp, he2, he1,
          List.append_assoc]

theorem AgreeExcept.extChainNext_eq {w w' : World} {f : String}
    (h : AgreeExcept w w' f) (path : String) (cfg : TsConfig) :
    extChainNext w' path cfg = extChainNext w path cfg := by
  unfold extChainNext
  rw [h.resolveExtended_eq]

theorem extChainF_eq_of_not_mem {w w' : World} {f : String} (h : AgreeExcept w w' f) :
    ∀ (fuel : Nat) (path : String) (cfg : TsConfig) (files packages : List String),
      f ∉ (extChainF w fuel path cfg files packages).files →
      extChainF w' fuel path cfg files packages = extChainF w fuel path cfg files packages := by
  intro fuel
  induction fuel with
  | zero =>
    intro path cfg files packages _
    cases hn : extChainNext w path cfg with
    | none =>
      rw [extChainF_stop w 0 path cfg files packages hn,
        extChainF_stop w' 0 path cfg files packages (by rw [h.extChainNext_eq]; exact hn)]
    | some ext =>
      cases hp : ext.externalPackage with
      | some pkg =>
        rw [extChainF_pkg w 0 path cfg files packages ext pkg hn hp,
          extChainF_pkg w' 0 path cfg files packages ext pkg
            (by rw [h.extChainNext_eq]; exact hn) hp]
      | none =>
        rw [extChainF_follow_zero w path cfg files packages ext hn hp,
          extChainF_follow_zero w' path cfg files packages ext
            (by rw [h.extChainNext_eq]; exact hn) hp]
  | succ n ih =>
    intro path cfg files packages hmem
    cases hn : extChainNext w path cfg with
    | none =>
      rw [extChainF_stop w (n+1) path cfg files packages hn,
        extChainF_stop w' (n+1) path cfg files packages (by rw [h.extChainNext_eq]; exact hn)]
    | some ext =>
      cases hp : ext.externalPackage with
      | some pkg =>
        rw [extChainF_pkg w (n+1) path cfg files packages ext pkg hn hp,
          extChainF_pkg w' (n+1) path cfg files packages ext pkg
            (by rw [h.extChainNext_eq]; exact hn) hp]
      | none =>
        rw [extChainF_follow_succ w n path cfg files packages ext hn hp] at hmem
        have hfp : ext.filePath ≠ f := by
          intro hEq
          obtain ⟨e, he⟩ := extChainF_files_mono w n ext.filePath (readTs w ext.filePath)
            (insertUniq files ext.filePath) packages
          apply hmem
          rw [he, ← hEq]
          exact List.mem_append_left e ((mem_insertUniq files ext.filePath ext.filePath).mpr
            (Or.inr rfl))
        rw [extChainF_follow_succ w n path cfg files packages ext hn hp,
          extChainF_follow_succ w' n path cfg files packages ext
            (by rw [h.extChainNext_eq]; exact hn) hp,
          h.readTs_eq ext.filePath hfp]
        exact ih ext.filePath (readTs w ext.filePath) (insertUniq files ext.filePath)
          packages hmem

theorem extChainF_div {w w' : World} {f : String} (h : AgreeExcept w w' f) :
    ∀ (fuel : Nat) (path : String) (cfg : TsConfig) (files packages : List String),
      f ∉ files → f ∈ (extChainF w fuel path cfg files packages).files →
      ∃ P R R', f ∉ P ∧
        (extChainF w fuel path cfg files packages).files = P ++ f :: R ∧
        (extChainF w' fuel path cfg files packages).files = P ++ f :: R' := by
  intro fuel
  induction fuel with
  | zero =>
    intro path cfg files packages hnf hmem
    cases hn : extChainNext w path cfg with
    | none =>
      rw [extChainF_stop w 0 path cfg files packages hn] at hmem
      exact absurd hmem hnf
    | some ext =>
      cases hp : ext.externalPackage with
      | some pkg =>
        rw [extChainF_pkg w 0 path cfg files packages ext pkg hn hp] at hmem
        exact absurd hmem hnf
      | none =>
        rw [extChainF_follow_zero w path cfg files packages ext hn hp] at hmem
        have hfp : ext.filePath = f := by
          rcases (mem_insertUniq files ext.filePath f).mp hmem with hc | hc
          · exact absurd hc hnf
          · exact hc.symm
        refine ⟨files, [], [], hnf, ?_, ?_⟩
        · rw [extChainF_follow_zero w path cfg files packages ext hn hp, hfp,
            insertUniq_of_not_mem files f hnf]
        · rw [extChainF_follow_zero w' path cfg files packages ext
            (by rw [h.extChainNext_eq]; exact hn) hp, hfp,
            insertUniq_of_not_mem files f hnf]
  | succ n ih =>
    intro path cfg files packages hnf hmem
    cases hn : extChainNext w path cfg with
    | none =>
      rw [extChainF_stop w (n+1) path cfg files packages hn] at hmem
      exact absurd hmem hnf
    | some ext =>
      cases hp : ext.externalPackage with
      | some pkg =>
        rw [extChainF_pkg w (n+1) path cfg files packages ext pkg hn hp] at hmem
        exact absurd hmem hnf
      | none =>
        rw [extChainF_follow_succ w n path cfg files packages ext hn hp] at hmem
        rw [extChainF_follow_succ w n path cfg files packages ext hn hp,
          extChainF_follow_succ w' n path cfg files packages ext
            (by rw [h.extChainNext_eq]; exact hn) hp]
        by_cases hfp : ext.filePath = f
        · subst hfp
          rw [insertUniq_of_not_mem files ext.filePath hnf]
          obtain ⟨e1, he1⟩ := extChainF_files_mono w n ext.filePath (readTs w ext.filePath)
            (files ++ [ext.filePath]) packages
          obtain ⟨e2, he2⟩ := extChainF_files_mono w' n ext.filePath (readTs w' ext.filePath)
            (files ++ [ext.filePath]) packages
          refine ⟨files, e1, e2, hnf, ?_, ?_⟩
          · rw [he1, List.append_assoc]; rfl
          · rw [he2, List.append_assoc]; rfl
        · rw [h.readTs_eq ext.filePath hfp]
          have hnf2 : f ∉ insertUniq files ext.filePath := by
            intro hc
            rcases (mem_insertUniq files ext.filePath f).mp hc with hc2 | hc2
            · exact hnf hc2
            · exact hfp hc2.symm
          exact ih ext.filePath (readTs w ext.filePath) (insertUniq files ext.filePath)
            packages hnf2 hmem

/-! ### Walker lemmas for cache-key soundness -/

theorem assocKeys_insertAssoc_of_mem (s : List (String × TsConfig)) (k : String)
    (v : TsConfig) (h : s.any (fun e => e.1 = k) = true) :
    assocKeys (insertAssoc s k v) = assocKeys s := by
  unfold insertAssoc assocKeys
  rw [if_pos h, List.map_map]
  apply List.map_congr_left
  intro e _
  by_cases he : e.1 = k
  · simp [he]
  · simp [he]

theorem assocKeys_insertAssoc_of_not_mem (s : List (String × TsConfig)) (k : String)
    (v : TsConfig) (h : s.any (fun e => e.1 = k) = false) :
    assocKeys (insertAssoc s k v) = assocKeys s ++ [k] := by
  unfold insertAssoc assocKeys
  rw [h]
  simp

theorem assocKeys_insertAssoc_append (s : List (String × TsConfig)) (k : String)
    (v : TsConfig) : ∃ e, assocKeys (insertAssoc s k v) = assocKeys s ++ e := by
  cases h : s.any (fun e => e.1 = k) with
  | true => exact ⟨[], by rw [assocKeys_insertAssoc_of_mem s k v h, List.append_nil]⟩
  | false => exact ⟨[k], assocKeys_insertAssoc_of_not_mem s k v h⟩

theorem mem_assocKeys_insertAssoc (s : List (String × TsConfig)) (k : String)
    (v : TsConfig) : k ∈ assocKeys (insertAssoc s k v) := by
  cases h : s.any (fun e => e.1 = k) with
  | true =>
    rw [assocKeys_insertAssoc_of_mem s k v h]
    rw [List.any_eq_true] at h
    obtain ⟨e, he, hk⟩ := h
    rw [decide_eq_true_eq] at hk
    exact hk ▸ List.mem_map_of_mem Prod.fst he
  | false =>
    rw [assocKeys_insertAssoc_of_not_mem s k v h]
    exact List.mem_append_right _ (List.mem_singleton.mpr rfl)

/-- Unfolding of `walkPRF` at fuel zero. -/
theorem walkPRF_zero {σ : Type} (w : World) (vis : String → TsConfig → σ → σ × Bool)
    (refs : List String) (s : σ) (visited : List String) :
    walkPRF w vis 0 refs s visited = walkListAux w vis none refs s visited := rfl

/-- Unfolding of `walkPRF` at positive fuel. -/
theorem walkPRF_succ {σ : Type} (w : World) (vis : String → TsConfig → σ → σ × Bool)
    (n : Nat) (refs : List String) (s : σ) (visited : List String) :
    walkPRF w vis (n + 1) refs s visited =
      walkListAux w vis (some (fun rc s' => walkPRF w vis n rc.projectReferences s' []))
        refs s visited := rfl

/-- Keys-monotonicity of the reference loop: the visitor state only grows. -/
theorem walkListAux_keys_mono (w : World)
    (vis : String → TsConfig → List (String × TsConfig) → List (String × TsConfig) × Bool)
    (hvis : ∀ rp rc s, ∃ e, assocKeys (vis rp rc s).1 = assocKeys s ++ e)
    (deep : Option (TsConfig → List (String × TsConfig) →
      List (String × TsConfig) × List String × Bool))
    (hdeep : ∀ d, deep = some d → ∀ rc s, ∃ e, assocKeys (d rc s).1 = assocKeys s ++ e) :
    ∀ (refs : List String) (s : List (String × TsConfig)) (visited : List String),
      ∃ e, assocKeys (walkListAux w vis deep refs s visited).1 = assocKeys s ++ e := by
  intro refs
  induction refs with
  | nil => exact fun s visited => ⟨[], by rw [List.append_nil]; rfl⟩
  | cons r rest ih =>
    intro s visited
    rw [walkListAux_cons]
    by_cases hv : visited.contains r = true
    · rw [if_pos hv]; exact ih s visited
    · rw [if_neg hv]
      by_cases hx : fsExists w r = false
      · rw [if_pos hx]; exact ih s visited
      · rw [if_neg hx]
        simp only []
        set rp := if strEndsWith r ".json" = true then r else pathJoin r "tsconfig.json" with hrp
        obtain ⟨e0, he0⟩ := hvis rp (readTs w rp) s
        by_cases hsc : (vis rp (readTs w rp) s).2 = true
        · rw [if_pos hsc]
          cases hd : deep with
          | none => exact ⟨e0, he0⟩
          | some d =>
            dsimp only
            obtain ⟨e1, he1⟩ := hdeep d hd (readTs w rp) (vis rp (readTs w rp) s).1
            by_cases hdr : (d (readTs w rp) (vis rp (readTs w rp) s).1).2.2 = true
            · rw [if_pos hdr]
              obtain ⟨e2, he2⟩ := ih (d (readTs w rp) (vis rp (readTs w rp) s).1).1 visited
              rw [hd] at he2
              exact ⟨e0 ++ e1 ++ e2, by
                simp only [he2, he1, he0, List.append_assoc]⟩
            · rw [if_neg hdr]
              exact ⟨e0 ++ e1, by simp only [he1, he0, List.append_assoc]⟩
        · rw [if_neg hsc]
          obtain ⟨e2, he2⟩ := ih (vis rp (readTs w rp) s).1 visited
          exact ⟨e0 ++ e2, by simp only [he2, he0, List.append_assoc]⟩

/-- Keys-monotonicity of the fueled walk. -/
theorem walkPRF_keys_mono (w : World)
    (vis : String → TsConfig → List (String × TsConfig) → List (String × TsConfig) × Bool)
    (hvis : ∀ rp rc s, ∃ e, assocKeys (vis rp rc s).1 = assocKeys s ++ e) :
    ∀ (fuel : Nat) (refs : List String) (s : List (String × TsConfig)) (visited : List String),
      ∃ e, assocKeys (walkPRF w vis fuel refs s visited).1 = assocKeys s ++ e := by
  intro fuel
  induction fuel with
  | zero =>
    intro refs s visited
    rw [walkPRF_zero]
    exact walkListAux_keys_mono w vis hvis none (by intro d hd; cases hd) refs s visited
  | succ n ih =>
    intro refs s visited
    rw [walkPRF_succ]
    refine walkListAux_keys_mono w vis hvis _ ?_ refs s visited
    intro d hd rc s'
    cases hd
    exact ih rc.projectReferences s' []

/-- Simulation of the reference loop between two worlds agreeing except on
`f`: as long as `f` is never recorded as a key by the `w`-run, the run in
`w'` is identical (the only content reads that can differ are of `f`, and
those never influence the traversal in that case). -/
theorem walkListAux_sim {w w' : World} {f : String} (h : AgreeExcept w w' f)
    (vis : String → TsConfig → List (String × TsConfig) → List (String × TsConfig) × Bool)
    (hvisMono : ∀ rp rc s, ∃ e, assocKeys (vis rp rc s).1 = assocKeys s ++ e)
    (hvisF : ∀ rc rc' s, f ∉ assocKeys (vis f rc s).1 → vis f rc' s = vis f rc s)
    (hvisFnoCont : ∀ rc s, f ∉ assocKeys (vis f rc s).1 → (vis f rc s).2 = false)
    (deep deep' : Option (TsConfig → List (String × TsConfig) →
      List (String × TsConfig) × List String × Bool))
    (hdeepSim :
      (deep = none ∧ deep' = none) ∨
      (∃ d d', deep = some d ∧ deep' = some d' ∧
        (∀ rc s, ∃ e, assocKeys (d rc s).1 = assocKeys s ++ e) ∧
        (∀ rc s, f ∉ assocKeys (d rc s).1 → d' rc s = d rc s))) :
    ∀ (refs : List String) (s : List (String × TsConfig)) (visited : List String),
      f ∉ assocKeys (walkListAux w vis deep refs s visited).1 →
      walkListAux w' vis deep' refs s visited = walkListAux w vis deep refs s visited := by
  have hdeepMono : ∀ d, deep = some d →
      ∀ rc s, ∃ e, assocKeys (d rc s).1 = assocKeys s ++ e := by
    intro d hd rc s
    rcases hdeepSim with ⟨h1, _⟩ | ⟨d0, d0', hd0, _, hm, _⟩
    · rw [h1] at hd; cases hd
    · rw [hd0] at hd; cases hd; exact hm rc s
  intro refs
  induction refs with
  | nil => intro s visited _; rfl
  | cons r rest ih =>
    intro s visited hmem
    rw [walkListAux_cons w vis deep r rest s visited] at hmem
    rw [walkListAux_cons w' vis deep' r rest s visited,
      walkListAux_cons w vis deep r rest s visited, h.fsExists_eq r]
    by_cases hv : visited.contains r = true
    · simp only [if_pos hv] at hmem ⊢
      exact ih s visited hmem
    · simp only [if_neg hv] at hmem ⊢
      by_cases hx : fsExists w r = false
      · simp only [if_pos hx] at hmem ⊢
        exact ih s visited hmem
      · simp only [if_neg hx] at hmem ⊢
        generalize hrp : (if strEndsWith r ".json" = true then r
          else pathJoin r "tsconfig.json") = rp at hmem ⊢
        by_cases hrpf : rp = f
        · -- the resolved path is the changed file itself
          rw [hrpf] at hmem ⊢
          -- `f` is never a key of the w-result, so the visitor state at `f`
          -- has no `f` key either (monotonicity through every branch).
          have hscf : f ∉ assocKeys (vis f (readTs w f) s).1 := by
            intro hc
            apply hmem
            by_cases hsc : (vis f (readTs w f) s).2 = true
            · simp only [if_pos hsc]
              cases hd : deep with
              | none => exact hc
              | some d =>
                try dsimp only
                obtain ⟨e1, he1⟩ := hdeepMono d hd (readTs w f) (vis f (readTs w f) s).1
                by_cases hdr : (d (readTs w f) (vis f (readTs w f) s).1).2.2 = true
                · simp only [if_pos hdr]
                  obtain ⟨e2, he2⟩ := walkListAux_keys_mono w vis hvisMono deep hdeepMono
                    rest (d (readTs w f) (vis f (readTs w f) s).1).1 visited
                  rw [hd] at he2
                  try dsimp only
                  rw [he2, he1]
                  exact List.mem_append_left _ (List.mem_append_left _ hc)
                · simp only [if_neg hdr]
                  try dsimp only
                  rw [he1]
                  exact List.mem_append_left _ hc
            · simp only [if_neg hsc]
              try dsimp only
              obtain ⟨e2, he2⟩ := walkListAux_keys_mono w vis hvisMono deep hdeepMono
                rest (vis f (readTs w f) s).1 visited
              rw [he2]
              exact List.mem_append_left _ hc
          have hsc0 : ¬ ((vis f (readTs w f) s).2 = true) := by
            rw [hvisFnoCont _ s hscf]
            simp
          have hvis' : vis f (readTs w' f) s = vis f (readTs w f) s := hvisF _ _ s hscf
          rw [hvis']
          simp only [if_neg hsc0] at hmem ⊢
          try dsimp only at hmem ⊢
          rw [ih (vis f (readTs w f) s).1 visited hmem]
        · -- the resolved path is unchanged between the worlds
          rw [h.readTs_eq rp hrpf]
          by_cases hsc : (vis rp (readTs w rp) s).2 = true
          · simp only [if_pos hsc] at hmem ⊢
            rcases hdeepSim with ⟨hd1, hd2⟩ | ⟨d, d', hd1, hd2, hdm, hde⟩
            · rw [hd1] at hmem ⊢
              rw [hd2]
            · rw [hd1] at hmem ⊢
              rw [hd2]
              try dsimp only at hmem ⊢
              have hdresf : f ∉ assocKeys (d (readTs w rp) (vis rp (readTs w rp) s).1).1 := by
                intro hc
                apply hmem
                by_cases hdr : (d (readTs w rp) (vis rp (readTs w rp) s).1).2.2 = true
                · simp only [if_pos hdr]
                  obtain ⟨e2, he2⟩ := walkListAux_keys_mono w vis hvisMono deep hdeepMono
                    rest (d (readTs w rp) (vis rp (readTs w rp) s).1).1 visited
                  rw [hd1] at he2
                  try dsimp only
                  rw [he2]
                  exact List.mem_append_left _ hc
                · simp only [if_neg hdr]
                  exact hc
              rw [hde _ _ hdresf]
              by_cases hdr : (d (readTs w rp) (vis rp (readTs w rp) s).1).2.2 = true
              · simp only [if_pos hdr] at hmem ⊢
                try dsimp only at hmem ⊢
                rw [← hd1] at hmem
                rw [← hd1, ← hd2]
                rw [ih (d (readTs w rp) (vis rp (readTs w rp) s).1).1 visited hmem]
              · simp only [if_neg hdr] at hmem ⊢
          · simp only [if_neg hsc] at hmem ⊢
            try dsimp only at hmem ⊢
            rw [ih (vis rp (readTs w rp) s).1 visited hmem]

/-- Simulation of the fueled walk between two worlds agreeing except on `f`. -/
theorem walkPRF_sim {w w' : World} {f : String} (h : AgreeExcept w w' f)
    (vis : String → TsConfig → List (String × TsConfig) → List (String × TsConfig) × Bool)
    (hvisMono : ∀ rp rc s, ∃ e, assocKeys (vis rp rc s).1 = assocKeys s ++ e)
    (hvisF : ∀ rc rc' s, f ∉ assocKeys (vis f rc s).1 → vis f rc' s = vis f rc s)
    (hvisFnoCont : ∀ rc s, f ∉ assocKeys (vis f rc s).1 → (vis f rc s).2 = false) :
    ∀ (fuel : Nat) (refs : List String) (s : List (String × TsConfig)) (visited : List String),
      f ∉ assocKeys (walkPRF w vis fuel refs s visited).1 →
      walkPRF w' vis fuel refs s visited = walkPRF w vis fuel refs s visited := by
  intro fuel
  induction fuel with
  | zero =>
    intro refs s visited hmem
    exact walkListAux_sim h vis hvisMono hvisF hvisFnoCont none none (Or.inl ⟨rfl, rfl⟩)
      refs s visited hmem
  | succ n ih =>
    intro refs s visited hmem
    refine walkListAux_sim h vis hvisMono hvisF hvisFnoCont _ _
      (Or.inr ⟨_, _, rfl, rfl, ?_, ?_⟩) refs s visited hmem
    · intro rc s'
      exact walkPRF_keys_mono w vis hvisMono n rc.projectReferences s' []
    · intro rc s' hm
      exact ih rc.projectReferences s' [] hm

/-! ### Visitor properties -/

theorem internalVisitor_keys (w : World) (ws proj : String) :
    ∀ (rp : String) (rc : TsConfig) (s : List (String × TsConfig)),
      ∃ e, assocKeys ((internalVisitor w ws proj) rp rc s).1 = assocKeys s ++ e ∧
        ∀ x ∈ e, x = rp := by
  intro rp rc s
  unfold internalVisitor
  by_cases he : isExternalProjectReference w rp ws proj = true
  · rw [if_pos he]
    exact ⟨[], by rw [List.append_nil]; exact ⟨rfl, by simp⟩⟩
  · rw [if_neg he]
    cases ha : s.any (fun e => e.1 = rp) with
    | true =>
      exact ⟨[], by
        rw [List.append_nil]
        exact ⟨assocKeys_insertAssoc_of_mem s rp rc ha, by simp⟩⟩
    | false =>
      exact ⟨[rp], ⟨assocKeys_insertAssoc_of_not_mem s rp rc ha, by simp⟩⟩

theorem internalVisitor_mono (w : World) (ws proj : String) :
    ∀ (rp : String) (rc : TsConfig) (s : List (String × TsConfig)),
      ∃ e, assocKeys ((internalVisitor w ws proj) rp rc s).1 = assocKeys s ++ e := by
  intro rp rc s
  obtain ⟨e, he, _⟩ := internalVisitor_keys w ws proj rp rc s
  exact ⟨e, he⟩

theorem internalVisitor_hF (w : World) (ws proj : String) (f : String) :
    ∀ (rc rc' : TsConfig) (s : List (String × TsConfig)),
      f ∉ assocKeys ((internalVisitor w ws proj) f rc s).1 →
      (internalVisitor w ws proj) f rc' s = (internalVisitor w ws proj) f rc s := by
  intro rc rc' s hmem
  unfold internalVisitor at hmem ⊢
  by_cases he : isExternalProjectReference w f ws proj = true
  · rw [if_pos he, if_pos he]
  · rw [if_neg he] at hmem
    exact absurd (mem_assocKeys_insertAssoc s f rc) hmem

theorem internalVisitor_hNoCont (w : World) (ws proj : String) (f : String) :
    ∀ (rc : TsConfig) (s : List (String × TsConfig)),
      f ∉ assocKeys ((internalVisitor w ws proj) f rc s).1 →
      ((internalVisitor w ws proj) f rc s).2 = false := by
  intro rc s hmem
  unfold internalVisitor at hmem ⊢
  by_cases he : isExternalProjectReference w f ws proj = true
  · rw [if_pos he]
  · rw [if_neg he] at hmem
    exact absurd (mem_assocKeys_insertAssoc s f rc) hmem

theorem internalVisitor_hFkeys (w : World) (ws proj : String) (f : String) :
    ∀ (rc rc' : TsConfig) (s : List (String × TsConfig)),
      assocKeys ((internalVisitor w ws proj) f rc' s).1 =
        assocKeys ((internalVisitor w ws proj) f rc s).1 ∧
      ((internalVisitor w ws proj) f rc' s).2 = ((internalVisitor w ws proj) f rc s).2 := by
  intro rc rc' s
  unfold internalVisitor
  by_cases he : isExternalProjectReference w f ws proj = true
  · simp only [if_pos he]
    exact ⟨trivial, trivial⟩
  · simp only [if_neg he]
    refine ⟨?_, trivial⟩
    cases ha : s.any (fun e => e.1 = f) with
    | true =>
      rw [assocKeys_insertAssoc_of_mem s f rc ha, assocKeys_insertAssoc_of_mem s f rc' ha]
    | false =>
      rw [assocKeys_insertAssoc_of_not_mem s f rc ha,
        assocKeys_insertAssoc_of_not_mem s f rc' ha]

/-- First-divergence decomposition for the reference loop: if the `w`-run
records `f` as a new key, then both runs' key lists agree on a prefix `P`
(free of `f`) followed by `f`; afterwards they may differ arbitrarily. -/
theorem walkListAux_div {w w' : World} {f : String} (h : AgreeExcept w w' f)
    (vis : String → TsConfig → List (String × TsConfig) → List (String × TsConfig) × Bool)
    (hvisKeys : ∀ rp rc s, ∃ e, assocKeys (vis rp rc s).1 = assocKeys s ++ e ∧ ∀ x ∈ e, x = rp)
    (hvisF : ∀ rc rc' s, f ∉ assocKeys (vis f rc s).1 → vis f rc' s = vis f rc s)
    (hvisFnoCont : ∀ rc s, f ∉ assocKeys (vis f rc s).1 → (vis f rc s).2 = false)
    (hvisFkeys : ∀ rc rc' s, assocKeys (vis f rc' s).1 = assocKeys (vis f rc s).1 ∧
      (vis f rc' s).2 = (vis f rc s).2)
    (deep deep' : Option (TsConfig → List (String × TsConfig) →
      List (String × TsConfig) × List String × Bool))
    (hdeepSim :
      (deep = none ∧ deep' = none) ∨
      (∃ d d', deep = some d ∧ deep' = some d' ∧
        (∀ rc s, ∃ e, assocKeys (d rc s).1 = assocKeys s ++ e) ∧
        (∀ rc s, ∃ e, assocKeys (d' rc s).1 = assocKeys s ++ e) ∧
        (∀ rc s, f ∉ assocKeys (d rc s).1 → d' rc s = d rc s) ∧
        (∀ rc s, f ∉ assocKeys s → f ∈ assocKeys (d rc s).1 →
          ∃ P R R', f ∉ P ∧ assocKeys (d rc s).1 = P ++ f :: R ∧
            assocKeys (d' rc s).1 = P ++ f :: R'))) :
    ∀ (refs : List String) (s : List (String × TsConfig)) (visited : List String),
      f ∉ assocKeys s →
      f ∈ assocKeys (walkListAux w vis deep refs s visited).1 →
      ∃ P R R', f ∉ P ∧
        assocKeys (walkListAux w vis deep refs s visited).1 = P ++ f :: R ∧
        assocKeys (walkListAux w' vis deep' refs s visited).1 = P ++ f :: R' := by
  have hvisMono : ∀ rp rc s, ∃ e, assocKeys (vis rp rc s).1 = assocKeys s ++ e := by
    intro rp rc s
    obtain ⟨e, he, _⟩ := hvisKeys rp rc s
    exact ⟨e, he⟩
  have hdeepMono : ∀ d, deep = some d →
      ∀ rc s, ∃ e, assocKeys (d rc s).1 = assocKeys s ++ e := by
    intro d hd rc s
    rcases hdeepSim with ⟨h1, _⟩ | ⟨d0, d0', hd0, _, hm, _, _, _⟩
    · rw [h1] at hd; cases hd
    · rw [hd0] at hd; cases hd; exact hm rc s
  have hdeepMono' : ∀ d', deep' = some d' →
      ∀ rc s, ∃ e, assocKeys (d' rc s).1 = assocKeys s ++ e := by
    intro d' hd rc s
    rcases hdeepSim with ⟨_, h1⟩ | ⟨d0, d0', _, hd0, _, hm, _, _⟩
    · rw [h1] at hd; cases hd
    · rw [hd0] at hd; cases hd; exact hm rc s
  intro refs
  induction refs with
  | nil =>
    intro s visited hnf hmem
    exact absurd hmem hnf
  | cons r rest ih =>
    intro s visited hnf hmem
    rw [walkListAux_cons w vis deep r rest s visited] at hmem
    rw [walkListAux_cons w vis deep r rest s visited,
      walkListAux_cons w' vis deep' r rest s visited, h.fsExists_eq r]
    by_cases hv : visited.contains r = true
    · simp only [if_pos hv] at hmem ⊢
      exact ih s visited hnf hmem
    · simp only [if_neg hv] at hmem ⊢
      by_cases hx : fsExists w r = false
      · simp only [if_pos hx] at hmem ⊢
        exact ih s visited hnf hmem
      · simp only [if_neg hx] at hmem ⊢
        generalize hrp : (if strEndsWith r ".json" = true then r
          else pathJoin r "tsconfig.json") = rp at hmem ⊢
        by_cases hrpf : rp = f
        · rw [hrpf] at hmem ⊢
          by_cases hf1 : f ∈ assocKeys (vis f (readTs w f) s).1
          · -- divergence starts at the visitor itself
            obtain ⟨e, he, hall⟩ := hvisKeys f (readTs w f) s
            have hkeys' := (hvisFkeys (readTs w f) (readTs w' f) s).1
            have hsc2' := (hvisFkeys (readTs w f) (readTs w' f) s).2
            cases e with
            | nil =>
              rw [List.append_nil] at he
              rw [he] at hf1
              exact absurd hf1 hnf
            | cons y e' =>
              have hy : y = f := hall y (List.mem_cons_self y e')
              rw [hy] at he
              by_cases hsc : (vis f (readTs w f) s).2 = true
              · simp only [if_pos hsc] at hmem ⊢
                rw [hsc] at hsc2'
                simp only [if_pos hsc2']
                rcases hdeepSim with ⟨hd1, hd2⟩ | ⟨d, d', hd1, hd2, hdm, hdm', hde, hdd⟩
                · rw [hd1] at hmem ⊢
                  rw [hd2]
                  refine ⟨assocKeys s, e', e', hnf, ?_, ?_⟩
                  · try dsimp only
                    rw [he]
                  · try dsimp only
                    rw [hkeys', he]
                · rw [hd1] at hmem ⊢
                  rw [hd2]
                  try dsimp only at hmem ⊢
                  -- w-side final keys
                  obtain ⟨E1, hE1⟩ := hdm (readTs w f) (vis f (readTs w f) s).1
                  obtain ⟨R, hR⟩ : ∃ R, assocKeys
                      (if (d (readTs w f) (vis f (readTs w f) s).1).2.2 = true then
                        ((walkListAux w vis (some d) rest
                          (d (readTs w f) (vis f (readTs w f) s).1).1 visited).1,
                          f :: (d (readTs w f) (vis f (readTs w f) s).1).2.1 ++
                            (walkListAux w vis (some d) rest
                              (d (readTs w f) (vis f (readTs w f) s).1).1 visited).2.1,
                          (walkListAux w vis (some d) rest
                            (d (readTs w f) (vis f (readTs w f) s).1).1 visited).2.2)
                      else ((d (readTs w f) (vis f (readTs w f) s).1).1,
                        f :: (d (readTs w f) (vis f (readTs w f) s).1).2.1, false)).1 =
                      assocKeys s ++ f :: R := by
                    by_cases hdr : (d (readTs w f) (vis f (readTs w f) s).1).2.2 = true
                    · simp only [if_pos hdr]
                      obtain ⟨E2, hE2⟩ := walkListAux_keys_mono w vis hvisMono (some d)
                        (by intro d0 hd0; cases hd0; exact hdm) rest
                        (d (readTs w f) (vis f (readTs w f) s).1).1 visited
                      try dsimp only
                      refine ⟨e' ++ E1 ++ E2, ?_⟩
                      rw [hE2, hE1, he]
                      simp [List.append_assoc]
                    · simp only [if_neg hdr]
                      try dsimp only
                      refine ⟨e' ++ E1, ?_⟩
                      rw [hE1, he]
                      simp [List.append_assoc]
                  -- w'-side final keys
                  obtain ⟨E1', hE1'⟩ := hdm' (readTs w' f) (vis f (readTs w' f) s).1
                  obtain ⟨R', hR'⟩ : ∃ R', assocKeys
                      (if (d' (readTs w' f) (vis f (readTs w' f) s).1).2.2 = true then
                        ((walkListAux w' vis (some d') rest
                          (d' (readTs w' f) (vis f (readTs w' f) s).1).1 visited).1,
                          f :: (d' (readTs w' f) (vis f (readTs w' f) s).1).2.1 ++
                            (walkListAux w' vis (some d') rest
                              (d' (readTs w' f) (vis f (readTs w' f) s).1).1 visited).2.1,
                          (walkListAux w' vis (some d') rest
                            (d' (readTs w' f) (vis f (readTs w' f) s).1).1 visited).2.2)
                      else ((d' (readTs w' f) (vis f (readTs w' f) s).1).1,
                        f :: (d' (readTs w' f) (vis f (readTs w' f) s).1).2.1, false)).1 =
                      assocKeys s ++ f :: R' := by
                    by_cases hdr' : (d' (readTs w' f) (vis f (readTs w' f) s).1).2.2 = true
                    · simp only [if_pos hdr']
                      obtain ⟨E2', hE2'⟩ := walkListAux_keys_mono w' vis hvisMono (some d')
                        (by intro d0 hd0; cases hd0; exact hdm') rest
                        (d' (readTs w' f) (vis f (readTs w' f) s).1).1 visited
                      try dsimp only
                      refine ⟨e' ++ E1' ++ E2', ?_⟩
                      rw [hE2', hE1', hkeys', he]
                      simp [List.append_assoc]
                    · simp only [if_neg hdr']
                      try dsimp only
                      refine ⟨e' ++ E1', ?_⟩
                      rw [hE1', hkeys', he]
                      simp [List.append_assoc]
                  exact ⟨assocKeys s, R, R', hnf, hR, hR'⟩
              · simp only [if_neg hsc] at hmem ⊢
                have hsc' : ¬ ((vis f (readTs w' f) s).2 = true) := by
                  rw [hsc2']; exact hsc
                simp only [if_neg hsc']
                try dsimp only at hmem ⊢
                obtain ⟨E2, hE2⟩ := walkListAux_keys_mono w vis hvisMono deep hdeepMono
                  rest (vis f (readTs w f) s).1 visited
                obtain ⟨E2', hE2'⟩ := walkListAux_keys_mono w' vis hvisMono deep' hdeepMono'
                  rest (vis f (readTs w' f) s).1 visited
                refine ⟨assocKeys s, e' ++ E2, e' ++ E2', hnf, ?_, ?_⟩
                · rw [hE2, he]; simp [List.append_assoc]
                · rw [hE2', hkeys', he]; simp [List.append_assoc]
          · -- the visitor does not record `f` here
            have hsc0 : ¬ ((vis f (readTs w f) s).2 = true) := by
              rw [hvisFnoCont _ s hf1]; simp
            have hvis' : vis f (readTs w' f) s = vis f (readTs w f) s :=
              hvisF _ _ s hf1
            rw [hvis']
            simp only [if_neg hsc0] at hmem ⊢
            try dsimp only at hmem ⊢
            exact ih (vis f (readTs w f) s).1 visited hf1 hmem
        · -- the resolved path is not the changed file
          rw [h.readTs_eq rp hrpf]
          have hf1 : f ∉ assocKeys (vis rp (readTs w rp) s).1 := by
            obtain ⟨e, he, hall⟩ := hvisKeys rp (readTs w rp) s
            rw [he]
            intro hc
            rcases List.mem_append.mp hc with hc | hc
            · exact hnf hc
            · exact hrpf (hall f hc).symm
          by_cases hsc : (vis rp (readTs w rp) s).2 = true
          · simp only [if_pos hsc] at hmem ⊢
            rcases hdeepSim with ⟨hd1, hd2⟩ | ⟨d, d', hd1, hd2, hdm, hdm', hde, hdd⟩
            · rw [hd1] at hmem ⊢
              rw [hd2]
              exact absurd hmem hf1
            · rw [hd1] at hmem ⊢
              rw [hd2]
              try dsimp only at hmem ⊢
              by_cases hfd : f ∈ assocKeys (d (readTs w rp) (vis rp (readTs w rp) s).1).1
              · obtain ⟨P, R0, R0', hPf, hDR, hDR'⟩ := hdd (readTs w rp)
                  (vis rp (readTs w rp) s).1 hf1 hfd
                -- w-side
                obtain ⟨R, hR⟩ : ∃ R, assocKeys
                    (if (d (readTs w rp) (vis rp (readTs w rp) s).1).2.2 = true then
                      ((walkListAux w vis (some d) rest
                        (d (readTs w rp) (vis rp (readTs w rp) s).1).1 visited).1,
                        rp :: (d (readTs w rp) (vis rp (readTs w rp) s).1).2.1 ++
                          (walkListAux w vis (some d) rest
                            (d (readTs w rp) (vis rp (readTs w rp) s).1).1 visited).2.1,
                        (walkListAux w vis (some d) rest
                          (d (readTs w rp) (vis rp (readTs w rp) s).1).1 visited).2.2)
                    else ((d (readTs w rp) (vis rp (readTs w rp) s).1).1,
                      rp :: (d (readTs w rp) (vis rp (readTs w rp) s).1).2.1, false)).1 =
                    P ++ f :: R := by
                  by_cases hdr : (d (readTs w rp) (vis rp (readTs w rp) s).1).2.2 = true
                  · simp only [if_pos hdr]
                    obtain ⟨E2, hE2⟩ := walkListAux_keys_mono w vis hvisMono (some d)
                      (by intro d0 hd0; cases hd0; exact hdm) rest
                      (d (readTs w rp) (vis rp (readTs w rp) s).1).1 visited
                    try dsimp only
                    exact ⟨R0 ++ E2, by rw [hE2, hDR]; simp [List.append_assoc]⟩
                  · simp only [if_neg hdr]
                    exact ⟨R0, hDR⟩
                -- w'-side
                obtain ⟨R', hR'⟩ : ∃ R', assocKeys
                    (if (d' (readTs w rp) (vis rp (readTs w rp) s).1).2.2 = true then
                      ((walkListAux w' vis (some d') rest
                        (d' (readTs w rp) (vis rp (readTs w rp) s).1).1 visited).1,
                        rp :: (d' (readTs w rp) (vis rp (readTs w rp) s).1).2.1 ++
                          (walkListAux w' vis (some d') rest
                            (d' (readTs w rp) (vis rp (readTs w rp) s).1).1 visited).2.1,
                        (walkListAux w' vis (some d') rest
                          (d' (readTs w rp) (vis rp (readTs w rp) s).1).1 visited).2.2)
                    else ((d' (readTs w rp) (vis rp (readTs w rp) s).1).1,
                      rp :: (d' (readTs w rp) (vis rp (readTs w rp) s).1).2.1, false)).1 =
                    P ++ f :: R' := by
                  by_cases hdr' : (d' (readTs w rp) (vis rp (readTs w rp) s).1).2.2 = true
                  · simp only [if_pos hdr']
                    obtain ⟨E2', hE2'⟩ := walkListAux_keys_mono w' vis hvisMono (some d')
                      (by intro d0 hd0; cases hd0; exact hdm') rest
                      (d' (readTs w rp) (vis rp (readTs w rp) s).1).1 visited
                    try dsimp only
                    exact ⟨R0' ++ E2', by rw [hE2', hDR']; simp [List.append_assoc]⟩
                  · simp only [if_neg hdr']
                    exact ⟨R0', hDR'⟩
                exact ⟨P, R, R', hPf, hR, hR'⟩
              · -- the deep call does not reach `f`
                rw [hde _ _ hfd]
                by_cases hdr : (d (readTs w rp) (vis rp (readTs w rp) s).1).2.2 = true
                · simp only [if_pos hdr] at hmem ⊢
                  try dsimp only at hmem ⊢
                  rw [← hd1] at hmem
                  rw [← hd1, ← hd2]
                  exact ih (d (readTs w rp) (vis rp (readTs w rp) s).1).1 visited hfd hmem
                · simp only [if_neg hdr] at hmem ⊢
                  exact absurd hmem hfd
          · simp only [if_neg hsc] at hmem ⊢
            try dsimp only at hmem ⊢
            exact ih (vis rp (readTs w rp) s).1 visited hf1 hmem

/-- First-divergence decomposition for the fueled walk. -/
theorem walkPRF_div {w w' : World} {f : String} (h : AgreeExcept w w' f)
    (vis : String → TsConfig → List (String × TsConfig) → List (String × TsConfig) × Bool)
    (hvisKeys : ∀ rp rc s, ∃ e, assocKeys (vis rp rc s).1 = assocKeys s ++ e ∧ ∀ x ∈ e, x = rp)
    (hvisF : ∀ rc rc' s, f ∉ assocKeys (vis f rc s).1 → vis f rc' s = vis f rc s)
    (hvisFnoCont : ∀ rc s, f ∉ assocKeys (vis f rc s).1 → (vis f rc s).2 = false)
    (hvisFkeys : ∀ rc rc' s, assocKeys (vis f rc' s).1 = assocKeys (vis f rc s).1 ∧
      (vis f rc' s).2 = (vis f rc s).2) :
    ∀ (fuel : Nat) (refs : List String) (s : List (String × TsConfig)) (visited : List String),
      f ∉ assocKeys s →
      f ∈ assocKeys (walkPRF w vis fuel refs s visited).1 →
      ∃ P R R', f ∉ P ∧
        assocKeys (walkPRF w vis fuel refs s visited).1 = P ++ f :: R ∧
        assocKeys (walkPRF w' vis fuel refs s visited).1 = P ++ f :: R' := by
  have hvisMono : ∀ rp rc s, ∃ e, assocKeys (vis rp rc s).1 = assocKeys s ++ e := by
    intro rp rc s
    obtain ⟨e, he, _⟩ := hvisKeys rp rc s
    exact ⟨e, he⟩
  intro fuel
  induction fuel with
  | zero =>
    intro refs s visited hnf hmem
    exact walkListAux_div h vis hvisKeys hvisF hvisFnoCont hvisFkeys none none
      (Or.inl ⟨rfl, rfl⟩) refs s visited hnf hmem
  | succ n ih =>
    intro refs s visited hnf hmem
    refine walkListAux_div h vis hvisKeys hvisF hvisFnoCont hvisFkeys _ _
      (Or.inr ⟨_, _, rfl, rfl, ?_, ?_, ?_, ?_⟩) refs s visited hnf hmem
    · intro rc s'
      exact walkPRF_keys_mono w vis hvisMono n rc.projectReferences s' []
    · intro rc s'
      exact walkPRF_keys_mono w' vis hvisMono n rc.projectReferences s' []
    · intro rc s' hm
      exact walkPRF_sim h vis hvisMono hvisF hvisFnoCont n rc.projectReferences s' [] hm
    · intro rc s' hm1 hm2
      exact ih rc.projectReferences s' [] hm1 hm2

/-! ### Shallow-walk key stability -/

theorem anyKey_eq_keys (s : List (String × TsConfig)) (k : String) :
    (s.any fun e => e.1 = k) = ((assocKeys s).any fun x => x = k) := by
  unfold assocKeys
  induction s with
  | nil => rfl
  | cons e rest ih => simp only [List.any_cons, List.map_cons, ih]

theorem assocKeys_insertAssoc_congr (s s' : List (String × TsConfig)) (k : String)
    (v v' : TsConfig) (hk : assocKeys s' = assocKeys s) :
    assocKeys (insertAssoc s' k v') = assocKeys (insertAssoc s k v) := by
  cases ha : s.any (fun e => e.1 = k) with
  | true =>
    have ha' : s'.any (fun e => e.1 = k) = true := by
      rw [anyKey_eq_keys, hk, ← anyKey_eq_keys]; exact ha
    rw [assocKeys_insertAssoc_of_mem s k v ha, assocKeys_insertAssoc_of_mem s' k v' ha', hk]
  | false =>
    have ha' : s'.any (fun e => e.1 = k) = false := by
      rw [anyKey_eq_keys, hk, ← anyKey_eq_keys]; exact ha
    rw [assocKeys_insertAssoc_of_not_mem s k v ha,
      assocKeys_insertAssoc_of_not_mem s' k v' ha', hk]

/-- On a visitor that never continues (the shallow collector), the
traversal's key list depends only on the filesystem shape and the key list
of the starting state — not on any file content. -/
theorem walkListAux_keysEq {w w' : World} {f : String} (h : AgreeExcept w w' f)
    (vis : String → TsConfig → List (String × TsConfig) → List (String × TsConfig) × Bool)
    (hvisKeysEq : ∀ rp rc rc' s s', assocKeys s' = assocKeys s →
      assocKeys (vis rp rc' s').1 = assocKeys (vis rp rc s).1)
    (hvisNoCont : ∀ rp rc s, (vis rp rc s).2 = false)
    (deep deep' : Option (TsConfig → List (String × TsConfig) →
      List (String × TsConfig) × List String × Bool)) :
    ∀ (refs : List String) (s s' : List (String × TsConfig)) (visited : List String),
      assocKeys s' = assocKeys s →
      assocKeys (walkListAux w' vis deep' refs s' visited).1 =
        assocKeys (walkListAux w vis deep refs s visited).1 := by
  intro refs
  induction refs with
  | nil => intro s s' visited hk; exact hk
  | cons r rest ih =>
    intro s s' visited hk
    rw [walkListAux_cons w vis deep r rest s visited,
      walkListAux_cons w' vis deep' r rest s' visited, h.fsExists_eq r]
    by_cases hv : visited.contains r = true
    · simp only [if_pos hv]
      exact ih s s' visited hk
    · simp only [if_neg hv]
      by_cases hx : fsExists w r = false
      · simp only [if_pos hx]
        exact ih s s' visited hk
      · simp only [if_neg hx]
        generalize (if strEndsWith r ".json" = true then r
          else pathJoin r "tsconfig.json") = rp
        have hw : ¬ ((vis rp (readTs w rp) s).2 = true) := by
          rw [hvisNoCont]; simp
        have hw' : ¬ ((vis rp (readTs w' rp) s').2 = true) := by
          rw [hvisNoCont]; simp
        simp only [if_neg hw, if_neg hw']
        try dsimp only
        exact ih (vis rp (readTs w rp) s).1 (vis rp (readTs w' rp) s').1 visited
          (hvisKeysEq rp (readTs w rp) (readTs w' rp) s s' hk)

theorem shallowVisitor_noCont (w : World) (ws proj : String) :
    ∀ (rp : String) (rc : TsConfig) (s : List (String × TsConfig)),
      ((shallowVisitor w ws proj) rp rc s).2 = false := by
  intro rp rc s
  rfl

theorem shallowVisitor_keysEq (w : World) (ws proj : String) :
    ∀ (rp : String) (rc rc' : TsConfig) (s s' : List (String × TsConfig)),
      assocKeys s' = assocKeys s →
      assocKeys ((shallowVisitor w ws proj) rp rc' s').1 =
        assocKeys ((shallowVisitor w ws proj) rp rc s).1 := by
  intro rp rc rc' s s' hk
  unfold shallowVisitor
  by_cases he : isExternalProjectReference w rp ws proj = true
  · simp only [if_pos he]
    exact assocKeys_insertAssoc_congr s s' rp rc rc' hk
  · simp only [if_neg he]
    exact hk

/-! ### Resolver-level simulation corollaries -/

theorem resolveInternal_eq {w w' : World} {f : String} (h : AgreeExcept w w' f)
    (ws proj : String) (fuel : Nat) (cfg : TsConfig)
    (hmem : f ∉ assocKeys (resolveInternalProjectReferences w fuel cfg ws proj).1) :
    resolveInternalProjectReferences w' fuel cfg ws proj =
      resolveInternalProjectReferences w fuel cfg ws proj := by
  unfold resolveInternalProjectReferences
  rw [h.internalVisitor_eq ws proj]
  exact walkPRF_sim h (internalVisitor w ws proj) (internalVisitor_mono w ws proj)
    (internalVisitor_hF w ws proj f) (internalVisitor_hNoCont w ws proj f)
    fuel cfg.projectReferences [] [] hmem

theorem resolveInternal_div {w w' : World} {f : String} (h : AgreeExcept w w' f)
    (ws proj : String) (fuel : Nat) (cfg : TsConfig)
    (hmem : f ∈ assocKeys (resolveInternalProjectReferences w fuel cfg ws proj).1) :
    ∃ P R R', f ∉ P ∧
      assocKeys (resolveInternalProjectReferences w fuel cfg ws proj).1 = P ++ f :: R ∧
      assocKeys (resolveInternalProjectReferences w' fuel cfg ws proj).1 = P ++ f :: R' := by
  unfold resolveInternalProjectReferences
  rw [h.internalVisitor_eq ws proj]
  exact walkPRF_div h (internalVisitor w ws proj) (internalVisitor_keys w ws proj)
    (internalVisitor_hF w ws proj f) (internalVisitor_hNoCont w ws proj f)
    (internalVisitor_hFkeys w ws proj f) fuel cfg.projectReferences [] []
    (List.not_mem_nil f) hmem

theorem resolveShallow_keysEq {w w' : World} {f : String} (h : AgreeExcept w w' f)
    (ws proj : String) (fuel : Nat) (cfg : TsConfig) :
    assocKeys (resolveShallowExternalProjectReferences w' fuel cfg ws proj).1 =
      assocKeys (resolveShallowExternalProjectReferences w fuel cfg ws proj).1 := by
  unfold resolveShallowExternalProjectReferences
  rw [h.shallowVisitor_eq ws proj]
  cases fuel with
  | zero =>
    exact walkListAux_keysEq h (shallowVisitor w ws proj) (shallowVisitor_keysEq w ws proj)
      (shallowVisitor_noCont w ws proj) none none cfg.projectReferences [] [] [] rfl
  | succ n =>
    exact walkListAux_keysEq h (shallowVisitor w ws proj) (shallowVisitor_keysEq w ws proj)
      (shallowVisitor_noCont w ws proj) _ _ cfg.projectReferences [] [] [] rfl

/-! ### List helpers for the hash-list comparison -/

theorem append_cons_ne {α : Type} (C : List α) (x y : α) (u v : List α) (hxy : x ≠ y) :
    C ++ x :: u ≠ C ++ y :: v := by
  intro hEq
  have h2 := List.append_cancel_left hEq
  injection h2 with h3 _
  exact hxy h3

theorem mem_split_first (x : String) :
    ∀ (l : List String), x ∈ l → ∃ P R, x ∉ P ∧ l = P ++ x :: R := by
  intro l
  induction l with
  | nil => intro hx; cases hx
  | cons y rest ih =>
    intro hx
    by_cases hxy : y = x
    · exact ⟨[], rest, by simp, by rw [hxy]; rfl⟩
    · have hx2 : x ∈ rest := by
        rcases List.mem_cons.mp hx with h1 | h1
        · exact absurd h1.symm hxy
        · exact h1
      obtain ⟨P, R, hP, hl⟩ := ih hx2
      refine ⟨y :: P, R, ?_, by rw [hl]; rfl⟩
      intro hc
      rcases List.mem_cons.mp hc with h1 | h1
      · exact hxy h1.symm
      · exact hP h1

theorem map_content_eq {w w' : World} {f : String} (h : AgreeExcept w w' f)
    (P : List String) (hP : f ∉ P) : P.map w'.content = P.map w.content := by
  apply List.map_congr_left
  intro p hp
  exact h.content_eq p (fun hEq => hP (hEq ▸ hp))

theorem hashes_ne_of_decomp {w w' : World} {f : String} (h : AgreeExcept w w' f)
    (hdiff : w'.content f ≠ w.content f) (pre : List String) (hpre : f ∉ pre)
    (u v : List String) :
    (pre ++ f :: u).map w'.content ≠ (pre ++ f :: v).map w.content := by
  rw [List.map_append, List.map_append, List.map_cons, List.map_cons,
    map_content_eq h pre hpre]
  exact append_cons_ne _ _ _ _ _ hdiff

/-! ### Destructuring of the cache-key computation -/

theorem nodeInfluencingFiles_some (w : World) (fuel : Nat)
    (configFilePath workspaceRoot lockFileName : String) (files : List String)
    (hf : nodeInfluencingFiles w fuel configFilePath workspaceRoot lockFileName = some files) :
    files = joinPathFragments workspaceRoot configFilePath ::
      (getExtendedConfigFiles w fuel (joinPathFragments workspaceRoot configFilePath)
        (readTs w (joinPathFragments workspaceRoot configFilePath))).files ++
      assocKeys (resolveInternalProjectReferences w fuel
        (readTs w (joinPathFragments workspaceRoot configFilePath)) workspaceRoot
        (dirname configFilePath)).1 ++
      assocKeys (resolveShallowExternalProjectReferences w fuel
        (readTs w (joinPathFragments workspaceRoot configFilePath)) workspaceRoot
        (dirname configFilePath)).1 ++
      [pathJoin workspaceRoot lockFileName] := by
  unfold nodeInfluencingFiles at hf
  simp only [] at hf
  split_ifs at hf with h1 h2 h3
  injection hf with hf2
  exact hf2.symm

theorem nodeCacheKey_some (w : World) (fuel : Nat) (configFilePath : String)
    (options : NormalizedPluginOptions) (workspaceRoot lockFileName : String) (k : CacheKey)
    (hk : nodeCacheKey w fuel configFilePath options workspaceRoot lockFileName = some k) :
    ∃ files, nodeInfluencingFiles w fuel configFilePath workspaceRoot lockFileName = some files ∧
      k = { fileHashes := files.map w.content
            optionsHash := options
            pkgHash := readPkg w (joinPathFragments (dirname configFilePath) "package.json")
            configFilePath := configFilePath } := by
  unfold nodeCacheKey at hk
  cases hi : nodeInfluencingFiles w fuel configFilePath workspaceRoot lockFileName with
  | none => rw [hi] at hk; cases hk
  | some files =>
    rw [hi] at hk
    simp only [Option.map_some] at hk
    injection hk with hk2
    exact ⟨files, rfl, hk2.symm⟩

theorem getExtendedConfigFiles_eq {w w' : World} {f : String} (h : AgreeExcept w w' f)
    (fuel : Nat) (p : String) (cfg : TsConfig)
    (hnE : f ∉ (getExtendedConfigFiles w fuel p cfg).files) :
    getExtendedConfigFiles w' fuel p cfg = getExtendedConfigFiles w fuel p cfg := by
  unfold getExtendedConfigFiles
  exact extChainF_eq_of_not_mem h fuel p cfg [] [] hnE

theorem getExtendedConfigFiles_div {w w' : World} {f : String} (h : AgreeExcept w w' f)
    (fuel : Nat) (p : String) (cfg : TsConfig)
    (hE : f ∈ (getExtendedConfigFiles w fuel p cfg).files) :
    ∃ P R R', f ∉ P ∧
      (getExtendedConfigFiles w fuel p cfg).files = P ++ f :: R ∧
      (getExtendedConfigFiles w' fuel p cfg).files = P ++ f :: R' := by
  unfold getExtendedConfigFiles
  exact extChainF_div h fuel p cfg [] [] (List.not_mem_nil f) hE

/-- The core first-difference argument: two influencing-file lists built
from the same head and tail, with the extends-chain and internal-walk
components pairwise equal before the changed file and decomposing at its
first occurrence, map to distinct hash lists under the two worlds. -/
theorem hash_lists_ne {w w' : World} {f : String} (h : AgreeExcept w w' f)
    (hdiff : w'.content f ≠ w.content f) (a l : String) (e e' i i' x : List String)
    (hA : f ≠ a)
    (hmem : f ∈ a :: e ++ i ++ x ++ [l])
    (hEeq : f ∉ e → e' = e)
    (hEdiv : f ∈ e → ∃ P R R', f ∉ P ∧ e = P ++ f :: R ∧ e' = P ++ f :: R')
    (hIeq : f ∉ i → i' = i)
    (hIdiv : f ∈ i → ∃ P R R', f ∉ P ∧ i = P ++ f :: R ∧ i' = P ++ f :: R') :
    (a :: e' ++ i' ++ x ++ [l]).map w'.content ≠ (a :: e ++ i ++ x ++ [l]).map w.content := by
  by_cases hE : f ∈ e
  · obtain ⟨P, R, R', hP, he, he'⟩ := hEdiv hE
    have h0 : a :: e ++ i ++ x ++ [l] = (a :: P) ++ f :: (R ++ i ++ x ++ [l]) := by
      rw [he]; simp [List.append_assoc]
    have h0' : a :: e' ++ i' ++ x ++ [l] = (a :: P) ++ f :: (R' ++ i' ++ x ++ [l]) := by
      rw [he']; simp [List.append_assoc]
    rw [h0, h0']
    refine hashes_ne_of_decomp h hdiff (a :: P) ?_ _ _
    intro hc
    rcases List.mem_cons.mp hc with h1 | h1
    · exact hA h1
    · exact hP h1
  · rw [hEeq hE]
    by_cases hI : f ∈ i
    · obtain ⟨P, R, R', hP, hi, hi'⟩ := hIdiv hI
      have h0 : a :: e ++ i ++ x ++ [l] = (a :: e ++ P) ++ f :: (R ++ x ++ [l]) := by
        rw [hi]; simp [List.append_assoc]
      have h0' : a :: e ++ i' ++ x ++ [l] = (a :: e ++ P) ++ f :: (R' ++ x ++ [l]) := by
        rw [hi']; simp [List.append_assoc]
      rw [h0, h0']
      refine hashes_ne_of_decomp h hdiff (a :: e ++ P) ?_ _ _
      intro hc
      simp only [List.cons_append, List.mem_cons, List.mem_append, or_assoc] at hc
      rcases hc with h1 | h1 | h1
      · exact hA h1
      · exact hE h1
      · exact hP h1
    · rw [hIeq hI]
      by_cases hX : f ∈ x
      · obtain ⟨P, R, hP, hx⟩ := mem_split_first f x hX
        have h0 : a :: e ++ i ++ x ++ [l] = (a :: e ++ i ++ P) ++ f :: (R ++ [l]) := by
          rw [hx]; simp [List.append_assoc]
        rw [h0]
        refine hashes_ne_of_decomp h hdiff (a :: e ++ i ++ P) ?_ _ _
        intro hc
        simp only [List.cons_append, List.mem_cons, List.mem_append, or_assoc] at hc
        rcases hc with h1 | h1 | h1 | h1
        · exact hA h1
        · exact hE h1
        · exact hI h1
        · exact hP h1
      · have hL : f = l := by
          simp only [List.cons_append, List.mem_cons, List.mem_append,
            List.mem_singleton, or_assoc] at hmem
          rcases hmem with h1 | h1 | h1 | h1 | h1 | h1
          · exact absurd h1 hA
          · exact absurd h1 hE
          · exact absurd h1 hI
          · exact absurd h1 hX
          · exact h1
          · exact absurd h1 (List.not_mem_nil f)
        have h0 : a :: e ++ i ++ x ++ [l] = (a :: e ++ i ++ x) ++ f :: ([] : List String) := by
          rw [hL]
        rw [h0]
        refine hashes_ne_of_decomp h hdiff (a :: e ++ i ++ x) ?_ _ _
        intro hc
        simp only [List.cons_append, List.mem_cons, List.mem_append, or_assoc] at hc
        rcases hc with h1 | h1 | h1 | h1
        · exact hA h1
        · exact hE h1
        · exact hI h1
        · exact hX h1

/-- C3: cache soundness. If the two worlds agree everywhere except on the
content of one file `f` (whose content differs and which exists in both),
and `f` belongs to the influencing set of a config file (the config file
itself, its transitively extended config files, its internal or shallow
external referenced config files, or the lock file), then the composite
cache keys computed by `createNodesInternal` in the two worlds differ:
any content change of an influencing file forces recomputation. -/
theorem C3_cache_key_soundness (w w' : World) (f : String)
    (h : AgreeExcept w w' f) (hdiff : w'.content f ≠ w.content f)
    (fuel : Nat) (configFilePath workspaceRoot lockFileName : String)
    (options : NormalizedPluginOptions) (files : List String) (k k' : CacheKey)
    (hfiles : nodeInfluencingFiles w fuel configFilePath workspaceRoot lockFileName = some files)
    (hmem : f ∈ files)
    (hk : nodeCacheKey w fuel configFilePath options workspaceRoot lockFileName = some k)
    (hk' : nodeCacheKey w' fuel configFilePath options workspaceRoot lockFileName = some k') :
    k' ≠ k := by
  obtain ⟨files0, hf0, hkeq⟩ :=
    nodeCacheKey_some w fuel configFilePath options workspaceRoot lockFileName k hk
  rw [hfiles] at hf0
  injection hf0 with hf0e
  subst hf0e
  obtain ⟨files1, hf1, hkeq'⟩ :=
    nodeCacheKey_some w' fuel configFilePath options workspaceRoot lockFileName k' hk'
  have hstruct := nodeInfluencingFiles_some w fuel configFilePath workspaceRoot
    lockFileName files hfiles
  have hstruct' := nodeInfluencingFiles_some w' fuel configFilePath workspaceRoot
    lockFileName files1 hf1
  intro hEq
  have hfh : files1.map w'.content = files.map w.content := by
    have h1 : k'.fileHashes = files1.map w'.content := by rw [hkeq']
    have h2 : k.fileHashes = files.map w.content := by rw [hkeq]
    rw [← h1, ← h2, hEq]
  by_cases hc : f = joinPathFragments workspaceRoot configFilePath
  · rw [hstruct', hstruct, ← hc] at hfh
    simp only [List.cons_append, List.map_cons] at hfh
    injection hfh with hfh1 _
    exact hdiff hfh1
  · have hcfg : readTs w' (joinPathFragments workspaceRoot configFilePath) =
        readTs w (joinPathFragments workspaceRoot configFilePath) :=
      h.readTs_eq _ (fun hp => hc hp.symm)
    rw [hcfg] at hstruct'
    rw [resolveShallow_keysEq h workspaceRoot (dirname configFilePath) fuel
      (readTs w (joinPathFragments workspaceRoot configFilePath))] at hstruct'
    rw [hstruct] at hmem
    rw [hstruct', hstruct] at hfh
    exact hash_lists_ne h hdiff _ _ _ _ _ _ _ hc hmem
      (fun hnE => congrArg ExtChainRes.files
        (getExtendedConfigFiles_eq h fuel _ _ hnE))
      (getExtendedConfigFiles_div h fuel _ _)
      (fun hnI => congrArg (fun r => assocKeys r.1)
        (resolveInternal_eq h workspaceRoot (dirname configFilePath) fuel _ hnI))
      (resolveInternal_div h workspaceRoot (dirname configFilePath) fuel _)
      hfh

/-- A world with a single config file at `/ws/proj/tsconfig.json` (payload
`10`), no extends chain and no project references. -/
def wSound : World :=
  { content := fun p => if p = "/ws/proj/tsconfig.json" then some 10 else none
    dirs := fun _ => false
    children := fun _ => []
    resolveModule := fun _ _ => none
    parseTs := fun _ => {}
    parsePkg := fun _ => {} }

/-- The same world after an edit of the config file (payload `11`). -/
def wSound' : World :=
  { wSound with content := fun p => if p = "/ws/proj/tsconfig.json" then some 11 else none }

theorem agreeSound : AgreeExcept wSound wSound' "/ws/proj/tsconfig.json" :=
  ⟨rfl, rfl, rfl, rfl, rfl,
   fun p hp => by
     show (if p = "/ws/proj/tsconfig.json" then some 11 else none) =
       (if p = "/ws/proj/tsconfig.json" then some 10 else none)
     rw [if_neg hp, if_neg hp],
   by decide, by decide⟩

theorem C3_cache_key_soundness_witness :
    CacheKey.mk [some 11, none] optsTypecheckOnly none "proj/tsconfig.json" ≠
      CacheKey.mk [some 10, none] optsTypecheckOnly none "proj/tsconfig.json" :=
  C3_cache_key_soundness wSound wSound' "/ws/proj/tsconfig.json" agreeSound (by decide)
    4 "proj/tsconfig.json" "/ws" "package-lock.json" optsTypecheckOnly
    ["/ws/proj/tsconfig.json", "/ws/package-lock.json"]
    (CacheKey.mk [some 10, none] optsTypecheckOnly none "proj/tsconfig.json")
    (CacheKey.mk [some 11, none] optsTypecheckOnly none "proj/tsconfig.json")
    (by decide) (by decide) (by decide) (by decide)
